import Mathlib

set_option autoImplicit false

/-!
# Verification of the frankentui core against its specification

Shallow embedding of the frankentui core subsystems, translated from the
repository sources:

* `LayoutCache`, `LayoutCacheKey` — from `crates/ftui-layout/src/cache.rs`
* trace replay — from `crates/ftui-harness/src/trace_replay.rs`
* `Buffer` dirty-span tracking and `BufferDiff` — modelled from the spec
  (§4.2, §4.5), since only their tests ship in the tree
* the layout solver — modelled from the spec (§4.3)
* `ResizeCoalescer` — modelled from the spec (§4.7)

Machine integers are modelled as `Nat` with explicit `% 2 ^ 64` where u64
wrapping matters.  Fallible operations return `Except`.
-/

namespace FrankenTui

/-- Layout direction (`ftui-layout`). -/
inductive Direction where
  | horizontal
  | vertical
deriving DecidableEq, Repr

/-- Rectangle with origin and extent (`ftui-core` geometry).  Fields are u16
in the source; modelled as `Nat`. -/
structure Rect where
  x : Nat
  y : Nat
  width : Nat
  height : Nat
deriving DecidableEq, Repr

/-- Layout constraint variants (spec §3; the exact variant list also appears
in the `match` of `hash_constraints` in `cache.rs`).  Numeric payloads are
`Nat`; the f32 payload of `Percentage` is carried as its bit pattern, which
is what `cache.rs` hashes (`p.to_bits()`). -/
inductive Constraint where
  | fixed (v : Nat)
  | percentage (p : Nat)
  | min (v : Nat)
  | max (v : Nat)
  | ratio (n d : Nat)
  | fill
  | fitContent
  | fitContentBounded (lo hi : Nat)
  | fitMin
deriving DecidableEq, Repr

/-- Intrinsic size hint supplied by widgets (spec §3, used in `cache.rs`). -/
structure LayoutSizeHint where
  min : Nat
  preferred : Nat
  max : Option Nat
deriving DecidableEq, Repr

/-! ## Constraint fingerprinting (`cache.rs`, `hash_constraints`)

`hash_constraints` feeds, for each constraint in order, the variant
discriminant and then every payload field into a `DefaultHasher` and returns
the 64-bit digest.  The token stream below mirrors that exact sequence of
`hash` calls; the std `DefaultHasher` itself is external to the repository.

Modelled from the spec: the std hasher is modelled as a 64-bit FNV-1a style
digest of the token stream ("hash of constraint list including
discriminant+payload", spec §4.4).  Every fact proved below about the digest
uses only that it is a function into `[0, 2^64)`. -/

/-- Discriminant token of a constraint (models `std::mem::discriminant`). -/
def Constraint.disc : Constraint → Nat
  | .fixed _ => 0
  | .percentage _ => 1
  | .min _ => 2
  | .max _ => 3
  | .ratio _ _ => 4
  | .fill => 5
  | .fitContent => 6
  | .fitContentBounded _ _ => 7
  | .fitMin => 8

/-- Tokens hashed for one constraint: discriminant, then payload fields in
source order (`cache.rs` lines 118-142). -/
def Constraint.hashTokens : Constraint → List Nat
  | .fixed v => [0, v]
  | .percentage p => [1, p]
  | .min v => [2, v]
  | .max v => [3, v]
  | .ratio n d => [4, n, d]
  | .fill => [5]
  | .fitContent => [6]
  | .fitContentBounded lo hi => [7, lo, hi]
  | .fitMin => [8]

/-- Token stream hashed for a constraint list, in list order. -/
def encodeConstraints : List Constraint → List Nat
  | [] => []
  | c :: cs => c.hashTokens ++ encodeConstraints cs

/-- Tokens hashed for one size hint (`cache.rs` `hash_intrinsics`): min,
preferred, then the `Option` max (discriminant then value). -/
def LayoutSizeHint.hashTokens (h : LayoutSizeHint) : List Nat :=
  [h.min, h.preferred] ++ (match h.max with | none => [0] | some v => [1, v])

/-- Token stream hashed for a size-hint list. -/
def encodeIntrinsics : List LayoutSizeHint → List Nat
  | [] => []
  | h :: hs => h.hashTokens ++ encodeIntrinsics hs

/-- One step of the 64-bit digest (FNV-1a style stand-in for the std
`DefaultHasher`). -/
def hash64Step (h t : Nat) : Nat := ((h ^^^ t) * 0x100000001b3) % (2 ^ 64)

/-- 64-bit digest of a token stream (stand-in for `DefaultHasher::finish`). -/
def hash64 (l : List Nat) : Nat := l.foldl hash64Step 0xcbf29ce484222325

/-- `LayoutCacheKey::hash_constraints`. -/
def hashConstraints (cs : List Constraint) : Nat := hash64 (encodeConstraints cs)

/-- `LayoutCacheKey::hash_intrinsics`. -/
def hashIntrinsics (hs : List LayoutSizeHint) : Nat := hash64 (encodeIntrinsics hs)

/-- Key for layout cache lookups (`cache.rs` `LayoutCacheKey`). -/
structure LayoutCacheKey where
  area_x : Nat
  area_y : Nat
  area_width : Nat
  area_height : Nat
  constraints_hash : Nat
  direction : Direction
  intrinsics_hash : Option Nat
deriving DecidableEq, Repr

/-- `LayoutCacheKey::new`. -/
def LayoutCacheKey.new (area : Rect) (constraints : List Constraint)
    (direction : Direction) (intrinsics : Option (List LayoutSizeHint)) :
    LayoutCacheKey :=
  { area_x := area.x
    area_y := area.y
    area_width := area.width
    area_height := area.height
    constraints_hash := hashConstraints constraints
    direction := direction
    intrinsics_hash := intrinsics.map hashIntrinsics }

/-- Cached layout result with metadata for eviction (`CachedLayoutEntry`). -/
structure CachedLayoutEntry where
  chunks : List Rect
  generation : Nat
  access_count : Nat
deriving DecidableEq, Repr

/-- u32 saturating increment (`access_count.saturating_add(1)`). -/
def satBump (a : Nat) : Nat := Nat.min (a + 1) (2 ^ 32 - 1)

/-- The cache's entry table.  The source stores a `HashMap`; it is modelled
as an association list with at most one live binding per key. -/
abbrev EntryList := List (LayoutCacheKey × CachedLayoutEntry)

/-- Lookup of the entry bound to a key (`HashMap::get`). -/
def getEntry (k : LayoutCacheKey) : EntryList → Option CachedLayoutEntry
  | [] => none
  | (k2, e) :: rest => if k2 = k then some e else getEntry k rest

/-- Binding insertion (`HashMap::insert`): replace the binding if the key is
present, otherwise add one. -/
def setEntry (k : LayoutCacheKey) (v : CachedLayoutEntry) : EntryList → EntryList
  | [] => [(k, v)]
  | (k2, e) :: rest =>
    if k2 = k then (k, v) :: rest else (k2, e) :: setEntry k v rest

/-- Binding removal (`HashMap::remove`). -/
def eraseEntry (k : LayoutCacheKey) : EntryList → EntryList
  | [] => []
  | (k2, e) :: rest => if k2 = k then rest else (k2, e) :: eraseEntry k rest

/-- The key of minimal access count together with that count
(`min_by_key` over `access_count`; ties go to the earlier element, the
source's iteration order being unspecified). -/
def minAccess : EntryList → Option (LayoutCacheKey × Nat)
  | [] => none
  | (k, e) :: rest =>
    match minAccess rest with
    | none => some (k, e.access_count)
    | some (k2, a2) =>
      if e.access_count ≤ a2 then some (k, e.access_count) else some (k2, a2)

/-- Cache for layout computation results (`cache.rs` `LayoutCache`). -/
structure LayoutCache where
  entries : EntryList
  generation : Nat
  max_entries : Nat
  hits : Nat
  misses : Nat

/-- `LayoutCache::new`. -/
def LayoutCache.new (max_entries : Nat) : LayoutCache :=
  { entries := [], generation := 0, max_entries := max_entries,
    hits := 0, misses := 0 }

/-- `LayoutCache::len`. -/
def LayoutCache.len (c : LayoutCache) : Nat := c.entries.length

/-- `LayoutCache::capacity`. -/
def LayoutCache.capacity (c : LayoutCache) : Nat := c.max_entries

/-- `LayoutCache::invalidate_all` (u64 wrapping bump of the generation). -/
def LayoutCache.invalidate_all (c : LayoutCache) : LayoutCache :=
  { c with generation := (c.generation + 1) % (2 ^ 64) }

/-- `LayoutCache::clear`. -/
def LayoutCache.clear (c : LayoutCache) : LayoutCache :=
  { c with entries := [], generation := (c.generation + 1) % (2 ^ 64) }

/-- `LayoutCache::evict_lru`. -/
def LayoutCache.evictLru (c : LayoutCache) : LayoutCache :=
  match minAccess c.entries with
  | none => c
  | some (k, _) => { c with entries := eraseEntry k c.entries }

/-- Result of `get_or_compute`: the returned chunks, the updated cache, and
whether the `compute` closure ran (the miss path). -/
structure GetResult where
  chunks : List Rect
  cache : LayoutCache
  computed : Bool

/-- The entry `get_or_compute` treats as a hit: present and of the current
generation (`cache.rs` lines 252-254). -/
def LayoutCache.validEntry (c : LayoutCache) (key : LayoutCacheKey) :
    Option CachedLayoutEntry :=
  match getEntry key c.entries with
  | some e => if e.generation = c.generation then some e else none
  | none => none

/-- The miss path of `get_or_compute`: count the miss, evict if at capacity,
then store the freshly computed chunks under the key. -/
def LayoutCache.missInsert (c : LayoutCache) (key : LayoutCacheKey)
    (chunks : List Rect) : LayoutCache :=
  let c1 : LayoutCache := { c with misses := c.misses + 1 }
  let c2 := if c1.max_entries ≤ c1.entries.length then c1.evictLru else c1
  { c2 with
    entries := setEntry key
      { chunks := chunks, generation := c.generation, access_count := 1 }
      c2.entries }

/-- `LayoutCache::get_or_compute`.  A valid same-generation entry is a hit:
its access count is bumped and a clone of its chunks returned.  Otherwise the
closure runs, the cache evicts if at capacity, and the result is stored. -/
def LayoutCache.getOrCompute (c : LayoutCache) (key : LayoutCacheKey)
    (compute : Unit → List Rect) : GetResult :=
  match c.validEntry key with
  | some e =>
    { chunks := e.chunks
      cache := { c with
        hits := c.hits + 1
        entries := setEntry key { e with access_count := satBump e.access_count }
          c.entries }
      computed := false }
  | none =>
    { chunks := compute ()
      cache := c.missInsert key (compute ())
      computed := true }

/-- One public cache operation, for stating invariants over call sequences.
`get k v` is `get_or_compute` with a pure closure returning `v`. -/
inductive CacheOp where
  | get (key : LayoutCacheKey) (chunks : List Rect)
  | invalidateAll
  | clear

/-- Apply one operation to a cache. -/
def applyCacheOp (c : LayoutCache) : CacheOp → LayoutCache
  | .get k v => (c.getOrCompute k (fun _ => v)).cache
  | .invalidateAll => c.invalidate_all
  | .clear => c.clear

/-- Apply a sequence of operations. -/
def applyCacheOps (c : LayoutCache) (ops : List CacheOp) : LayoutCache :=
  ops.foldl applyCacheOp c

/-- Two constraint lists that differ in exactly one position (a single
constraint's variant or payload changed, everything else equal). -/
def SingleConstraintDiff (cs1 cs2 : List Constraint) : Prop :=
  ∃ pre c1 c2 suf,
    cs1 = pre ++ c1 :: suf ∧ cs2 = pre ++ c2 :: suf ∧ c1 ≠ c2

/-- A family of `2^64 + 1` pairwise-distinct constraints (every u32 pair as a
`Ratio`, plus `Fill`); more constraints than 64-bit digests exist. -/
def ratioFamily (i : Fin (2 ^ 64 + 1)) : Constraint :=
  if (i : Nat) < 2 ^ 64 then
    Constraint.ratio ((i : Nat) / 2 ^ 32) ((i : Nat) % 2 ^ 32)
  else Constraint.fill

/-! ## Layout solver

Modelled from the spec: the `Flex` constraint solver of `ftui-layout` is not
in the tree (only `cache.rs` and the `repro_ratio_behavior` regression
test), so the solver is modelled from spec §4.3: per-constraint desired
sizes, slack, weighted distribution of slack over the flexible constraints
(`Fill` with weight 1, `Max` with its headroom — `Ratio` is a fixed
fraction, never flexible), leftover pixels to the earliest flexible child,
`Min` floors / `Max` ceilings, and contiguous placement from the container
origin.  The f32 `Percentage` payload is read as an integer percent here
(floating point stays out of scope; no claim exercises fractional
percentages). -/

/-- The size hint used when a constraint has no matching hint. -/
def defaultHint : LayoutSizeHint := { min := 0, preferred := 0, max := none }

/-- A hint's preferred size clamped into its own `[min, max]` band. -/
def hintClamp (h : LayoutSizeHint) : Nat :=
  Nat.max h.min (match h.max with | none => h.preferred | some m => Nat.min h.preferred m)

/-- Desired size of one constraint (spec §4.3 step 1): `Fixed→n`,
`Percentage→round(p·available/100)`, `Ratio(a,b)→round(a·available/b)`,
`Min→n`, `Max→0`, `Fill→0`, content fits from the hint. -/
def desiredSize (available : Nat) (hint : LayoutSizeHint) : Constraint → Nat
  | .fixed n => n
  | .percentage p => (p * available + 50) / 100
  | .min n => n
  | .max _ => 0
  | .ratio a b => if b = 0 then 0 else (a * available + b / 2) / b
  | .fill => 0
  | .fitContent => hintClamp hint
  | .fitContentBounded lo hi => Nat.min (Nat.max hint.preferred lo) hi
  | .fitMin => hint.min

/-- Flexible weight (spec §4.3 step 3): 1 for `Fill`, the headroom for
`Max`, 0 for everything else — in particular `Ratio` carries no weight. -/
def flexWeight : Constraint → Nat
  | .fill => 1
  | .max n => n
  | _ => 0

/-- Pad the hint list to one hint per constraint. -/
def padHints (n : Nat) (hints : List LayoutSizeHint) : List LayoutSizeHint :=
  (List.range n).map (fun i => hints.getD i defaultHint)

/-- Weighted base share of the slack for each weight (floor division). -/
def baseShares (slack W : Nat) (ws : List Nat) : List Nat :=
  ws.map (fun w => if W = 0 then 0 else slack * w / W)

/-- Hand the rounding leftover out one pixel at a time to the earliest
flexible (positive-weight) children (spec §4.3 step 5). -/
def addLeftover : Nat → List Nat → List Nat → List Nat
  | 0, _, base => base
  | _ + 1, [], base => base
  | _, _, [] => []
  | n + 1, w :: ws, b :: bs =>
    if 0 < w then (b + 1) :: addLeftover n ws bs
    else b :: addLeftover (n + 1) ws bs

/-- Final size of one constraint from its desired size and its slack share,
with the `Min` floor and `Max` ceiling applied (spec §4.3 step 4). -/
def constraintSize (c : Constraint) (d extra : Nat) : Nat :=
  match c with
  | .max n => Nat.min (d + extra) n
  | .min n => Nat.max (d + extra) n
  | _ => d + extra

/-- Combine constraints, desired sizes and extras position-wise. -/
def applySizes : List Constraint → List Nat → List Nat → List Nat
  | c :: cs, d :: ds, e :: es => constraintSize c d e :: applySizes cs ds es
  | _, _, _ => []

/-- Sizes along the primary axis for a constraint list (spec §4.3 steps
1-5). -/
def flexSizes (available : Nat) (cs : List Constraint)
    (hints : List LayoutSizeHint) : List Nat :=
  let hs := padHints cs.length hints
  let ds := List.zipWith (fun c h => desiredSize available h c) cs hs
  let ws := cs.map flexWeight
  let base := baseShares (available - ds.sum) ws.sum ws
  let extras :=
    addLeftover ((available - ds.sum) - base.sum) ws base
  applySizes cs ds extras

/-- Contiguous horizontal placement from the container origin (spec §4.3
step 6). -/
def placeH : Nat → Nat → Nat → List Nat → List Rect
  | _, _, _, [] => []
  | x, y, h, s :: ss => { x := x, y := y, width := s, height := h } :: placeH (x + s) y h ss

/-- Horizontal split of an area (spec §4.3; an empty area yields zero-sized
rects at the origin, one per constraint). -/
def splitH (area : Rect) (cs : List Constraint)
    (hints : List LayoutSizeHint) : List Rect :=
  if area.width = 0 ∨ area.height = 0 then
    cs.map (fun _ => { x := area.x, y := area.y, width := 0, height := 0 })
  else
    placeH area.x area.y area.height (flexSizes area.width cs hints)

/-! ## ResizeCoalescer

Modelled from the spec: `ftui_runtime::resize_coalescer` (the
`ResizeCoalescer`, `CoalescerConfig` and `CoalesceAction` types) is not in
the tree — only the chaos-test harness that drives it — so the coalescer is
modelled from spec §4.7: two regimes Steady/Burst, at most one pending
`(w, h)` pair with latest-wins overwrite, time injected through
`handle_resize_at(w, h, t)` and `tick_at(t)`.  A recorded resize is applied
by the next tick once the steady debounce (Steady), the burst quiet period,
or the hard deadline since the first pending resize (Burst) has elapsed;
`forced_by_deadline` marks a deadline-triggered apply.  Burst is entered
when at least `burst_trigger_count` resizes fall within `burst_window_ms`;
an inter-resize gap above `steady_threshold_ms` returns to Steady. -/

/-- Coalescer timing configuration (spec §4.7). -/
structure CoalescerConfig where
  steady_threshold_ms : Nat
  steady_debounce_ms : Nat
  burst_trigger_count : Nat
  burst_window_ms : Nat
  burst_quiet_ms : Nat
  hard_deadline_ms : Nat
deriving DecidableEq, Repr

/-- The coalescer's behaviour class (spec glossary). -/
inductive Regime where
  | steady
  | burst
deriving DecidableEq, Repr

/-- Decision returned by the coalescer (shape per the chaos harness:
`None`, `ShowPlaceholder`, `ApplyResize { width, height, coalesce_time,
forced_by_deadline }`). -/
inductive CoalesceAction where
  | none
  | showPlaceholder
  | applyResize (width height coalesce_time : Nat) (forced_by_deadline : Bool)
deriving DecidableEq, Repr

/-- Coalescer state: the config, the last applied size, at most one pending
size, when the pending pair first appeared, when the last resize arrived,
the burst-detection window and the current regime. -/
structure ResizeCoalescer where
  config : CoalescerConfig
  last_applied : Nat × Nat
  pending : Option (Nat × Nat)
  pending_since : Nat
  last_resize_at : Nat
  window_start : Nat
  window_count : Nat
  regime : Regime
deriving DecidableEq, Repr

/-- `ResizeCoalescer::new(config, initial_size)`. -/
def ResizeCoalescer.new (config : CoalescerConfig) (initial : Nat × Nat) :
    ResizeCoalescer :=
  { config := config, last_applied := initial, pending := none,
    pending_since := 0, last_resize_at := 0, window_start := 0,
    window_count := 0, regime := .steady }

/-- `handle_resize_at(w, h, t)`: record the resize (latest wins — the pending
pair is overwritten), update burst detection and the regime, and keep
coalescing (the render loop may show a placeholder frame meanwhile). -/
def ResizeCoalescer.handle_resize_at (s : ResizeCoalescer) (w h t : Nat) :
    CoalesceAction × ResizeCoalescer :=
  let inWindow := 0 < s.window_count ∧ t ≤ s.window_start + s.config.burst_window_ms
  (CoalesceAction.showPlaceholder,
   { s with
     pending := some (w, h)
     pending_since := if s.pending = none then t else s.pending_since
     last_resize_at := t
     window_start := if inWindow then s.window_start else t
     window_count := if inWindow then s.window_count + 1 else 1
     regime :=
       if s.config.burst_trigger_count ≤
           (if inWindow then s.window_count + 1 else 1) then Regime.burst
       else if s.last_resize_at + s.config.steady_threshold_ms < t then
         Regime.steady
       else s.regime })

/-- `tick_at(t)`: apply the pending resize if its regime's delay has
elapsed — `steady_debounce_ms` after the last resize in Steady; in Burst,
`burst_quiet_ms` of quiet or `hard_deadline_ms` since the first pending
resize (the latter marks the apply as forced). -/
def ResizeCoalescer.tick_at (s : ResizeCoalescer) (t : Nat) :
    CoalesceAction × ResizeCoalescer :=
  match s.pending with
  | none => (CoalesceAction.none, s)
  | some (w, h) =>
    match s.regime with
    | .steady =>
      if s.last_resize_at + s.config.steady_debounce_ms ≤ t then
        (CoalesceAction.applyResize w h (t - s.pending_since) false,
         { s with pending := none, last_applied := (w, h) })
      else (CoalesceAction.none, s)
    | .burst =>
      if s.last_resize_at + s.config.burst_quiet_ms ≤ t ∨
          s.pending_since + s.config.hard_deadline_ms ≤ t then
        (CoalesceAction.applyResize w h (t - s.pending_since)
          (if s.last_resize_at + s.config.burst_quiet_ms ≤ t then false
           else true),
         { s with pending := none, last_applied := (w, h) })
      else (CoalesceAction.none, s)

/-- `has_pending()`. -/
def ResizeCoalescer.has_pending (s : ResizeCoalescer) : Bool :=
  s.pending.isSome

/-- One injected event: a resize notification or a driver tick, each with
its injected timestamp. -/
inductive CoEvent where
  | resize (w h t : Nat)
  | tick (t : Nat)
deriving DecidableEq, Repr

/-- Whether an event is a tick. -/
def CoEvent.isTick : CoEvent → Bool
  | .tick _ => true
  | .resize _ _ _ => false

/-- Deliver one event. -/
def coStep (s : ResizeCoalescer) : CoEvent → CoalesceAction × ResizeCoalescer
  | .resize w h t => s.handle_resize_at w h t
  | .tick t => s.tick_at t

/-- Deliver a sequence of events, returning the final state. -/
def coRun (s : ResizeCoalescer) : List CoEvent → ResizeCoalescer
  | [] => s
  | e :: es => coRun (coStep s e).2 es

/-- Deliver a sequence of events, returning every decision in order. -/
def coActions (s : ResizeCoalescer) : List CoEvent → List CoalesceAction
  | [] => []
  | e :: es => (coStep s e).1 :: coActions (coStep s e).2 es

/-- After the final resize `(w, h)` at time `t_f`, the coalescer either
still holds exactly that pair pending, or has already applied it. -/
def TrackState (w h t_f : Nat) (s : ResizeCoalescer) : Prop :=
  s.last_resize_at = t_f ∧
    (s.pending = some (w, h) ∨
      (s.pending = none ∧ s.last_applied = (w, h)))

/-! ## Render-trace replay (`crates/ftui-harness/src/trace_replay.rs`)

The replay tool reconstructs a grid by applying per-frame payloads in file
order and asserts an FNV-1a checksum after each frame.  File and JSONL I/O
are abstracted: a record list stands for the parsed `frame` events, with
payload bytes inlined in place of `payload_path` files.  Bytes are `Nat`
values below 256; u64 arithmetic carries an explicit `% 2 ^ 64`. -/

/-- Cell content as stored by the replay grid (`TraceContent`). -/
inductive TraceContent where
  | empty
  | char (codepoint : Nat)
  | grapheme (bytes : List Nat)
  | continuation
deriving DecidableEq, Repr

/-- `TraceContent::kind`. -/
def TraceContent.kind : TraceContent → Nat
  | .empty => 0
  | .char _ => 1
  | .grapheme _ => 2
  | .continuation => 3

/-- One replay grid cell (`TraceCell`). -/
structure TraceCell where
  content : TraceContent
  fg : Nat
  bg : Nat
  attrs : Nat
deriving DecidableEq, Repr

/-- `TraceCell::default()`: empty content, white fg, transparent bg.  The
numeric `PackedRgba::WHITE` / `TRANSPARENT` constants live outside the
tree; they are modelled as all-ones white and zero transparent — no claim
depends on the exact values. -/
def TraceCell.default : TraceCell :=
  { content := .empty, fg := 0xFFFFFFFF, bg := 0, attrs := 0 }

/-- The replay grid (`TraceGrid`): row-major cells. -/
structure TraceGrid where
  width : Nat
  height : Nat
  cells : List TraceCell
deriving DecidableEq, Repr

/-- `TraceGrid::new`. -/
def TraceGrid.new (w h : Nat) : TraceGrid :=
  { width := w, height := h, cells := List.replicate (w * h) TraceCell.default }

/-- `TraceGrid::index`: row-major index, `none` out of bounds. -/
def TraceGrid.index (g : TraceGrid) (x y : Nat) : Option Nat :=
  if g.width ≤ x ∨ g.height ≤ y then none else some (y * g.width + x)

/-- Replay errors (`io::Error` kinds used by trace_replay.rs, plus the
checksum mismatch with its diagnostic payload). -/
inductive ReplayError where
  | eof
  | invalidData (msg : String)
  | checksumMismatch (frame_idx expected actual : Nat)
deriving DecidableEq, Repr

/-- `TraceGrid::set_cell`. -/
def TraceGrid.set_cell (g : TraceGrid) (x y : Nat) (c : TraceCell) :
    Except ReplayError TraceGrid :=
  match g.index x y with
  | none => .error (.invalidData "cell out of bounds")
  | some i => .ok { g with cells := g.cells.set i c }

/-- FNV-1a offset basis (trace_replay.rs). -/
def FNV_OFFSET_BASIS : Nat := 0xcbf29ce484222325

/-- FNV-1a prime (trace_replay.rs). -/
def FNV_PRIME : Nat := 0x100000001b3

/-- `fnv1a_update`: fold bytes into a u64 hash. -/
def fnv1aUpdate (hash : Nat) (bytes : List Nat) : Nat :=
  bytes.foldl (fun h b => ((h ^^^ b) * FNV_PRIME) % (2 ^ 64)) hash

/-- Little-endian bytes of a u16. -/
def u16le (n : Nat) : List Nat := [n % 256, n / 256 % 256]

/-- Little-endian bytes of a u32. -/
def u32le (n : Nat) : List Nat :=
  [n % 256, n / 256 % 256, n / 65536 % 256, n / 16777216 % 256]

/-- Whether a codepoint is a valid `char` (no surrogates, below 0x110000). -/
def validCodepoint (cp : Nat) : Bool :=
  if cp < 0xD800 then true
  else if 0xE000 ≤ cp ∧ cp < 0x110000 then true
  else false

/-- UTF-8 encoding of a codepoint, U+FFFD for invalid ones
(`char::from_u32(..).unwrap_or('\u{FFFD}')` then `encode_utf8`). -/
def utf8Bytes (cp : Nat) : List Nat :=
  let c := if validCodepoint cp then cp else 0xFFFD
  if c < 0x80 then [c]
  else if c < 0x800 then [0xC0 + c / 64, 0x80 + c % 64]
  else if c < 0x10000 then [0xE0 + c / 4096, 0x80 + c / 64 % 64, 0x80 + c % 64]
  else [0xF0 + c / 262144, 0x80 + c / 4096 % 64, 0x80 + c / 64 % 64,
    0x80 + c % 64]

/-- The canonical byte encoding of one cell hashed by
`TraceGrid::checksum`: content kind, a u16 length plus payload bytes (zero
length for Empty/Continuation), then fg, bg, attrs as u32 little-endian. -/
def cellBytes (c : TraceCell) : List Nat :=
  [c.content.kind] ++
    (match c.content with
     | .empty => u16le 0
     | .continuation => u16le 0
     | .char cp =>
       let bs := utf8Bytes cp
       let len := Nat.min bs.length 0xFFFF
       u16le len ++ bs.take len
     | .grapheme bs =>
       let len := Nat.min bs.length 0xFFFF
       u16le len ++ bs.take len) ++
    u32le c.fg ++ u32le c.bg ++ u32le c.attrs

/-- `TraceGrid::checksum`: FNV-1a over the canonical encoding of every cell
in row-major order. -/
def TraceGrid.checksum (g : TraceGrid) : Nat :=
  g.cells.foldl (fun h c => fnv1aUpdate h (cellBytes c)) FNV_OFFSET_BASIS

/-- A payload byte stream. -/
abbrev ByteStream := List Nat

/-- `read_u8` via `read_exact`. -/
def readU8 : ByteStream → Except ReplayError (Nat × ByteStream)
  | [] => .error .eof
  | b :: rest => .ok (b, rest)

/-- `read_u16` (little endian). -/
def readU16 (s : ByteStream) : Except ReplayError (Nat × ByteStream) := do
  let (b0, s) ← readU8 s
  let (b1, s) ← readU8 s
  .ok (b0 + 256 * b1, s)

/-- `read_u32` (little endian). -/
def readU32 (s : ByteStream) : Except ReplayError (Nat × ByteStream) := do
  let (b0, s) ← readU8 s
  let (b1, s) ← readU8 s
  let (b2, s) ← readU8 s
  let (b3, s) ← readU8 s
  .ok (b0 + 256 * b1 + 65536 * b2 + 16777216 * b3, s)

/-- `read_exact` of `n` bytes. -/
def readBytes : Nat → ByteStream → Except ReplayError (List Nat × ByteStream)
  | 0, s => .ok ([], s)
  | _ + 1, [] => .error .eof
  | n + 1, b :: s => do
    let (bs, s2) ← readBytes n s
    .ok (b :: bs, s2)

/-- `read_cell`: content kind, content payload (validated codepoint or
length-checked grapheme bytes), then fg, bg, attrs. -/
def readCell (s : ByteStream) : Except ReplayError (TraceCell × ByteStream) := do
  let (kind, s) ← readU8 s
  let (content, s) ←
    (if kind = 0 then .ok (TraceContent.empty, s)
     else if kind = 1 then do
       let (cp, s) ← readU32 s
       if validCodepoint cp then .ok (TraceContent.char cp, s)
       else .error (.invalidData "invalid char codepoint")
     else if kind = 2 then do
       let (len, s) ← readU16 s
       if 4096 < len then .error (.invalidData "grapheme length exceeds 4096")
       else do
         let (bytes, s) ← readBytes len s
         .ok (TraceContent.grapheme bytes, s)
     else if kind = 3 then .ok (TraceContent.continuation, s)
     else .error (.invalidData "invalid content kind") :
      Except ReplayError (TraceContent × ByteStream))
  let (fg, s) ← readU32 s
  let (bg, s) ← readU32 s
  let (attrs, s) ← readU32 s
  .ok ({ content := content, fg := fg, bg := bg, attrs := attrs }, s)

/-- Read and place `n` consecutive cells of row `y` starting at column `x`. -/
def applyRunCells : TraceGrid → Nat → Nat → Nat → ByteStream →
    Except ReplayError (TraceGrid × ByteStream)
  | g, _, _, 0, s => .ok (g, s)
  | g, y, x, n + 1, s => do
    let (c, s2) ← readCell s
    let g2 ← g.set_cell x y c
    applyRunCells g2 y (x + 1) n s2

/-- Read and apply `n` runs, each `y, x0, x1` with validation then its
cells (`apply_diff_runs` main loop). -/
def applyRuns : TraceGrid → Nat → ByteStream →
    Except ReplayError (TraceGrid × ByteStream)
  | g, 0, s => .ok (g, s)
  | g, n + 1, s => do
    let (y, s) ← readU16 s
    let (x0, s) ← readU16 s
    let (x1, s) ← readU16 s
    if x1 < x0 then .error (.invalidData "invalid run range")
    else if g.height ≤ y ∨ g.width ≤ x1 then
      .error (.invalidData "run out of bounds")
    else do
      let (g2, s2) ← applyRunCells g y x0 (x1 + 1 - x0) s
      applyRuns g2 n s2

/-- `TraceGrid::apply_diff_runs`: header (w, h, run count), dimension
check, runs, trailing-byte check. -/
def TraceGrid.apply_diff_runs (g : TraceGrid) (payload : ByteStream) :
    Except ReplayError TraceGrid := do
  let (w, s) ← readU16 payload
  let (h, s) ← readU16 s
  let (runCount, s) ← readU32 s
  if w ≠ g.width ∨ h ≠ g.height then
    .error (.invalidData "payload dimensions do not match frame dimensions")
  else do
    let (g2, s2) ← applyRuns g runCount s
    if s2 = [] then .ok g2
    else .error (.invalidData "payload has trailing bytes")

/-- Row loop of `apply_full_buffer`: every cell of `rows` rows of width `w`
from row `y`. -/
def applyFullRows : TraceGrid → Nat → Nat → Nat → ByteStream →
    Except ReplayError (TraceGrid × ByteStream)
  | g, _, 0, _, s => .ok (g, s)
  | g, y, rows + 1, w, s => do
    let (g2, s2) ← applyRunCells g y 0 w s
    applyFullRows g2 (y + 1) rows w s2

/-- `TraceGrid::apply_full_buffer`: header (w, h), dimension check, every
cell row-major, trailing-byte check. -/
def TraceGrid.apply_full_buffer (g : TraceGrid) (payload : ByteStream) :
    Except ReplayError TraceGrid := do
  let (w, s) ← readU16 payload
  let (h, s) ← readU16 s
  if w ≠ g.width ∨ h ≠ g.height then
    .error (.invalidData "payload dimensions do not match frame dimensions")
  else do
    let (g2, s2) ← applyFullRows g 0 h w s
    if s2 = [] then .ok g2
    else .error (.invalidData "payload has trailing bytes")

/-- One frame record's payload (`payload_kind` plus the bytes its
`payload_path` file holds; `none` carries nothing). -/
inductive FramePayload where
  | fullBuffer (bytes : ByteStream)
  | diffRuns (bytes : ByteStream)
  | noPayload
deriving DecidableEq, Repr

/-- One parsed `frame` record of the trace. -/
structure FrameRecord where
  frame_idx : Nat
  cols : Nat
  rows : Nat
  payload : FramePayload
  checksum : Nat
deriving DecidableEq, Repr

/-- `ReplaySummary`. -/
structure ReplaySummary where
  frames : Nat
  last_checksum : Option Nat
deriving DecidableEq, Repr

/-- Per-frame grid update of `replay_trace` without the checksum assertion:
resize when the record's dimensions differ, then apply the payload. -/
def frameApply (g : TraceGrid) (r : FrameRecord) : Except ReplayError TraceGrid :=
  let g1 := if g.width ≠ r.cols ∨ g.height ≠ r.rows
    then TraceGrid.new r.cols r.rows else g
  match r.payload with
  | .fullBuffer bs => g1.apply_full_buffer bs
  | .diffRuns bs => g1.apply_diff_runs bs
  | .noPayload => .ok g1

/-- One frame of `replay_trace`: apply, recompute the checksum and compare
it with the record's `checksum` field. -/
def replayStep (g : TraceGrid) (r : FrameRecord) : Except ReplayError TraceGrid := do
  let g2 ← frameApply g r
  if g2.checksum ≠ r.checksum then
    .error (.checksumMismatch r.frame_idx r.checksum g2.checksum)
  else .ok g2

/-- The record loop of `replay_trace`. -/
def replayGo : TraceGrid → Nat → Option Nat → List FrameRecord →
    Except ReplayError ReplaySummary
  | _, frames, last, [] => .ok { frames := frames, last_checksum := last }
  | g, frames, _, r :: rs => do
    let g2 ← replayStep g r
    replayGo g2 (frames + 1) (some g2.checksum) rs

/-- `replay_trace` over the parsed frame records: verify every frame, then
reject traces with no frame records. -/
def replay_trace (records : List FrameRecord) : Except ReplayError ReplaySummary := do
  let s ← replayGo (TraceGrid.new 0 0) 0 none records
  if s.frames = 0 then .error (.invalidData "no frame records found")
  else .ok s

/-- The grid after applying a record list without checksum assertions. -/
def gridAfter : TraceGrid → List FrameRecord → Except ReplayError TraceGrid
  | g, [] => .ok g
  | g, r :: rs => do
    let g2 ← frameApply g r
    gridAfter g2 rs

/-- Every record's payload applies cleanly and its recomputed checksum
equals its recorded `checksum` field, frame by frame from grid `g`. -/
def AllMatch : TraceGrid → List FrameRecord → Prop
  | _, [] => True
  | g, r :: rs =>
    ∃ g2, frameApply g r = .ok g2 ∧ g2.checksum = r.checksum ∧ AllMatch g2 rs

/-! ## Buffer dirty-span tracking and BufferDiff

Modelled from the spec: `ftui-render`'s `Cell`, `Buffer` and `BufferDiff`
are not in the tree (only their tests), so they are modelled from spec §3,
§4.2 and §4.5: a cell grid with per-row dirty state (clean, full, or a
bounded sorted list of inclusive column spans, capacity `K = 8`, promotion
to full on overflow); `set_raw` writes a cell and marks its column,
out-of-bounds writes are no-ops; `compute` walks each row left-to-right
emitting maximal runs of differing cells as `(y, x0, x1)` triples with `x1`
inclusive; `compute_dirty` scans only the new buffer's dirty spans and
treats full rows like `compute`; mismatched dimensions are an error. -/

/-- Cell content (spec §3). -/
inductive CellContent where
  | empty
  | singleChar (c : Nat)
  | grapheme (id : Nat)
  | continuation
deriving DecidableEq, Repr

/-- One grid cell (spec §3): content, colors, attrs, hyperlink slot. -/
structure Cell where
  content : CellContent
  fg : Nat
  bg : Nat
  attrs : Nat
  link_id : Nat
deriving DecidableEq, Repr

/-- Default cell: empty content with default style. -/
def Cell.default : Cell :=
  { content := .empty, fg := 0xFFFFFFFF, bg := 0, attrs := 0, link_id := 0 }

/-- `Cell::from_char`. -/
def Cell.from_char (c : Nat) : Cell :=
  { Cell.default with content := .singleChar c }

/-- Per-row dirty state (spec §4.2). -/
inductive RowDirty where
  | clean
  | full
  | spans (l : List (Nat × Nat))
deriving DecidableEq, Repr

/-- Span capacity K per row (spec §4.2: "fixed small capacity K of spans
per row (e.g. 8)"). -/
def spanCap : Nat := 8

/-- Merge a freshly right-extended span `(lo, x)` with the next span when
they touch. -/
def mergeAt (lo x : Nat) : List (Nat × Nat) → List (Nat × Nat)
  | [] => [(lo, x)]
  | (lo2, hi2) :: r2 =>
    if x + 1 = lo2 then (lo, hi2) :: r2 else (lo, x) :: (lo2, hi2) :: r2

/-- Record column `x` in a sorted non-adjacent span list: extend an
adjacent span, merge two spans, or insert a new one (spec §4.2). -/
def addCol (x : Nat) : List (Nat × Nat) → List (Nat × Nat)
  | [] => [(x, x)]
  | (lo, hi) :: rest =>
    if x + 1 < lo then (x, x) :: (lo, hi) :: rest
    else if x + 1 = lo then (x, hi) :: rest
    else if x ≤ hi then (lo, hi) :: rest
    else if x = hi + 1 then mergeAt lo x rest
    else (lo, hi) :: addCol x rest

/-- Mark one column dirty in a row; inserting beyond the span capacity
promotes the row to fully dirty and reports the overflow. -/
def RowDirty.mark (x : Nat) : RowDirty → RowDirty × Bool
  | .clean => (.spans [(x, x)], false)
  | .full => (.full, false)
  | .spans l =>
    let l2 := addCol x l
    if spanCap < l2.length then (.full, true) else (.spans l2, false)

/-- A cell grid with dirty tracking (spec §4.2).  Cells are a function of
`(x, y)`; rows at `y ≥ height` are never touched. -/
structure Buffer where
  width : Nat
  height : Nat
  cells : Nat → Nat → Cell
  dirty : Nat → RowDirty
  overflows : Nat

/-- `Buffer::new`: cells initialised to default; fresh buffers start fully
dirty (the dirty-span tests call `clear_dirty` first for that reason). -/
def Buffer.new (w h : Nat) : Buffer :=
  { width := w, height := h, cells := fun _ _ => Cell.default,
    dirty := fun _ => .full, overflows := 0 }

/-- `Buffer::set_raw`: write a cell without wide-pair normalisation and
mark its row span; out-of-bounds writes are no-ops (spec §4.2 failure
mode). -/
def Buffer.set_raw (b : Buffer) (x y : Nat) (c : Cell) : Buffer :=
  if x < b.width ∧ y < b.height then
    { b with
      cells := fun x2 y2 => if x2 = x ∧ y2 = y then c else b.cells x2 y2
      dirty := fun y2 => if y2 = y then ((b.dirty y).mark x).1 else b.dirty y2
      overflows := b.overflows + (if ((b.dirty y).mark x).2 then 1 else 0) }
  else b

/-- `Buffer::clear_dirty`: mark every row clean. -/
def Buffer.clear_dirty (b : Buffer) : Buffer :=
  { b with dirty := fun _ => .clean }

/-- Apply a sequence of `set_raw` writes. -/
def applyWrites (b : Buffer) : List (Nat × Nat × Cell) → Buffer
  | [] => b
  | (x, y, c) :: ws => applyWrites (b.set_raw x y c) ws

/-- Whether the two buffers' cells at `(x, y)` differ (spec §4.5 cell
comparison: content, fg, bg, attrs, link_id all equal). -/
def rowDiffers (bOld bNew : Buffer) (y x : Nat) : Bool :=
  decide (bOld.cells x y ≠ bNew.cells x y)

/-- Coalesce a strictly ascending column list into maximal runs, carrying
the open run `[x0, x1]` (spec §4.5: contiguous differences coalesce; a gap
closes the span). -/
def runsOfAux (x0 x1 : Nat) : List Nat → List (Nat × Nat)
  | [] => [(x0, x1)]
  | z :: zs =>
    if z = x1 + 1 then runsOfAux x0 z zs else (x0, x1) :: runsOfAux z z zs

/-- Maximal runs of an ascending column list as inclusive `(x0, x1)`
spans. -/
def runsOf : List Nat → List (Nat × Nat)
  | [] => []
  | z :: zs => runsOfAux z z zs

/-- The differing columns within `len` columns starting at `lo`, in
ascending order. -/
def diffColsIn (differs : Nat → Bool) (lo len : Nat) : List Nat :=
  (List.range' lo len).filter differs

/-- One row of `BufferDiff::compute`: left-to-right scan of the whole row.
-/
def rowChangesFull (differs : Nat → Bool) (w : Nat) : List (Nat × Nat) :=
  runsOf (diffColsIn differs 0 w)

/-- Scan only the recorded dirty spans of a row, in order. -/
def spansChanges (differs : Nat → Bool) : List (Nat × Nat) → List (Nat × Nat)
  | [] => []
  | (lo, hi) :: rest =>
    runsOf (diffColsIn differs lo (hi + 1 - lo)) ++ spansChanges differs rest

/-- One row of `BufferDiff::compute_dirty`: nothing for clean rows, a full
scan for fully dirty rows, the span scan otherwise. -/
def rowChangesDirty (differs : Nat → Bool) (w : Nat) : RowDirty → List (Nat × Nat)
  | .clean => []
  | .full => rowChangesFull differs w
  | .spans l => spansChanges differs l

/-- BufferDiff error kind (spec §7). -/
inductive DiffError where
  | dimensionMismatch
deriving DecidableEq, Repr

/-- Collect per-row spans into ordered `(y, x0, x1)` triples over rows
`0..h`. -/
def rowsJoin (f : Nat → List (Nat × Nat)) (h : Nat) : List (Nat × Nat × Nat) :=
  (List.range h).foldr
    (fun y acc => ((f y).map fun p => (y, p.1, p.2)) ++ acc) []

/-- `BufferDiff::compute` (spec §4.5): full cell-level comparison. -/
def BufferDiff.compute (bOld bNew : Buffer) :
    Except DiffError (List (Nat × Nat × Nat)) :=
  if bOld.width = bNew.width ∧ bOld.height = bNew.height then
    .ok (rowsJoin (fun y => rowChangesFull (rowDiffers bOld bNew y) bNew.width)
      bNew.height)
  else .error .dimensionMismatch

/-- `BufferDiff::compute_dirty` (spec §4.5): iterate only the new buffer's
dirty spans; full rows behave like `compute`. -/
def BufferDiff.compute_dirty (bOld bNew : Buffer) :
    Except DiffError (List (Nat × Nat × Nat)) :=
  if bOld.width = bNew.width ∧ bOld.height = bNew.height then
    .ok (rowsJoin
      (fun y => rowChangesDirty (rowDiffers bOld bNew y) bNew.width
        (bNew.dirty y))
      bNew.height)
  else .error .dimensionMismatch

/-- Well-formed span list above a lower bound: ascending, non-empty spans,
separated by at least one clean column. -/
def SpansWF : Nat → List (Nat × Nat) → Prop
  | _, [] => True
  | lb, (lo, hi) :: rest => lb ≤ lo ∧ lo ≤ hi ∧ SpansWF (hi + 2) rest

/-- Column `x` lies in one of the spans. -/
def covered (l : List (Nat × Nat)) (x : Nat) : Prop :=
  ∃ s ∈ l, s.1 ≤ x ∧ x ≤ s.2

/-- The row's dirty state over-approximates its differing columns: clean
rows differ nowhere, span rows are well formed, bounded by the width and
cover every differing column. -/
def GoodRow (differs : Nat → Bool) (w : Nat) : RowDirty → Prop
  | .clean => ∀ x, differs x = false
  | .full => True
  | .spans l =>
    SpansWF 0 l ∧ (∀ s ∈ l, s.2 < w) ∧ ∀ x, differs x = true → covered l x

/-- Invariant tying a buffer to the base it was cleared from: dimensions
agree and every row's dirty state covers its changes against the base. -/
def DiffInv (base b : Buffer) : Prop :=
  b.width = base.width ∧ b.height = base.height ∧
    ∀ y, GoodRow (rowDiffers base b y) base.width (b.dirty y)

/-! ## Lemmas and theorems -/

theorem getEntry_setEntry_self (k : LayoutCacheKey) (v : CachedLayoutEntry)
    (l : EntryList) : getEntry k (setEntry k v l) = some v := by
  induction l with
  | nil => simp [setEntry, getEntry]
  | cons p rest ih =>
    by_cases h : p.1 = k <;> simp [setEntry, getEntry, h, ih]

theorem setEntry_length_le (k : LayoutCacheKey) (v : CachedLayoutEntry)
    (l : EntryList) : (setEntry k v l).length ≤ l.length + 1 := by
  induction l with
  | nil => simp [setEntry]
  | cons p rest ih =>
    by_cases h : p.1 = k <;> simp [setEntry, h] <;> omega

theorem setEntry_length_of_present (k : LayoutCacheKey) (v : CachedLayoutEntry)
    (l : EntryList) (h : (getEntry k l).isSome) :
    (setEntry k v l).length = l.length := by
  induction l with
  | nil => simp [getEntry] at h
  | cons p rest ih =>
    by_cases hk : p.1 = k
    · simp [setEntry, hk]
    · simp [getEntry, hk] at h
      simp [setEntry, hk, ih h]

theorem minAccess_key_mem (l : EntryList) (k : LayoutCacheKey) (a : Nat)
    (h : minAccess l = some (k, a)) : ∃ e, (k, e) ∈ l := by
  induction l generalizing k a with
  | nil => simp [minAccess] at h
  | cons p rest ih =>
    obtain ⟨pk, pe⟩ := p
    rw [minAccess] at h
    rcases hr : minAccess rest with _ | ⟨k2, a2⟩ <;> rw [hr] at h <;> dsimp only at h
    · simp only [Option.some.injEq, Prod.mk.injEq] at h
      exact ⟨pe, by simp [h.1]⟩
    · by_cases hle : pe.access_count ≤ a2
      · rw [if_pos hle] at h
        simp only [Option.some.injEq, Prod.mk.injEq] at h
        exact ⟨pe, by simp [h.1]⟩
      · rw [if_neg hle] at h
        simp only [Option.some.injEq, Prod.mk.injEq] at h
        obtain ⟨e, he⟩ := ih k2 a2 hr
        refine ⟨e, ?_⟩
        rw [← h.1]
        exact List.mem_cons_of_mem _ he

theorem minAccess_some_of_ne_nil (l : EntryList) (h : l ≠ []) :
    ∃ p, minAccess l = some p := by
  cases l with
  | nil => exact absurd rfl h
  | cons p rest =>
    rw [minAccess]
    rcases hr : minAccess rest with _ | ⟨k2, a2⟩
    · exact ⟨_, rfl⟩
    · by_cases hle : p.2.access_count ≤ a2 <;> simp [hle]

theorem eraseEntry_length_of_mem (k : LayoutCacheKey) (l : EntryList)
    (h : ∃ e, (k, e) ∈ l) : (eraseEntry k l).length + 1 = l.length := by
  induction l with
  | nil => simp at h
  | cons p rest ih =>
    by_cases hk : p.1 = k
    · simp [eraseEntry, hk]
    · obtain ⟨e, he⟩ := h
      rcases List.mem_cons.mp he with heq | hmem
      · exact absurd (congrArg Prod.fst heq.symm) hk
      · simp only [eraseEntry, hk, if_neg, not_false_iff, List.length_cons]
        rw [← ih ⟨e, hmem⟩]

theorem evictLru_len (c : LayoutCache) (h : c.entries ≠ []) :
    (c.evictLru).len + 1 = c.len := by
  obtain ⟨⟨k, a⟩, hp⟩ := minAccess_some_of_ne_nil c.entries h
  have hmem := minAccess_key_mem c.entries k a hp
  simp only [LayoutCache.evictLru, hp, LayoutCache.len]
  exact eraseEntry_length_of_mem k c.entries hmem

theorem evictLru_max (c : LayoutCache) :
    (c.evictLru).max_entries = c.max_entries := by
  rw [LayoutCache.evictLru]
  rcases h : minAccess c.entries with _ | p <;> rfl

theorem missInsert_len_le (c : LayoutCache) (key : LayoutCacheKey)
    (chunks : List Rect) (hcap : 1 ≤ c.max_entries)
    (hle : c.len ≤ c.max_entries) :
    (c.missInsert key chunks).len ≤ c.max_entries := by
  rw [LayoutCache.missInsert]
  simp only [LayoutCache.len] at hle ⊢
  by_cases hfull : c.max_entries ≤ c.entries.length
  · have hne : (({ c with misses := c.misses + 1 } : LayoutCache)).entries ≠ [] := by
      show c.entries ≠ []
      intro hnil
      rw [hnil] at hfull
      simp at hfull
      omega
    simp only [hfull, if_pos]
    have h1 := evictLru_len { c with misses := c.misses + 1 } hne
    have h2 := setEntry_length_le key
      { chunks := chunks, generation := c.generation, access_count := 1 }
      (({ c with misses := c.misses + 1 } : LayoutCache)).evictLru.entries
    simp only [LayoutCache.len] at h1
    have h3 : (({ c with misses := c.misses + 1 } : LayoutCache)).entries.length
        = c.entries.length := rfl
    omega
  · simp only [hfull, if_neg, not_false_iff]
    have h2 := setEntry_length_le key
      { chunks := chunks, generation := c.generation, access_count := 1 }
      c.entries
    omega

theorem missInsert_max (c : LayoutCache) (key : LayoutCacheKey)
    (chunks : List Rect) :
    (c.missInsert key chunks).max_entries = c.max_entries := by
  rw [LayoutCache.missInsert]
  by_cases hfull : c.max_entries ≤ c.entries.length
  · simp only [hfull, if_pos]
    exact evictLru_max { c with misses := c.misses + 1 }
  · simp only [hfull, if_neg, not_false_iff]

theorem getOrCompute_len_le (c : LayoutCache) (key : LayoutCacheKey)
    (f : Unit → List Rect) (hcap : 1 ≤ c.max_entries)
    (hle : c.len ≤ c.max_entries) :
    (c.getOrCompute key f).cache.len ≤ c.max_entries := by
  rw [LayoutCache.getOrCompute]
  rcases hv : c.validEntry key with _ | e
  · exact missInsert_len_le c key (f ()) hcap hle
  · have hpresent : (getEntry key c.entries).isSome := by
      rw [LayoutCache.validEntry] at hv
      rcases hg : getEntry key c.entries with _ | e2 <;> rw [hg] at hv
      · simp at hv
      · simp
    show (setEntry key _ c.entries).length ≤ c.max_entries
    rw [setEntry_length_of_present _ _ _ hpresent]
    exact hle

theorem getOrCompute_max (c : LayoutCache) (key : LayoutCacheKey)
    (f : Unit → List Rect) :
    (c.getOrCompute key f).cache.max_entries = c.max_entries := by
  rw [LayoutCache.getOrCompute]
  rcases hv : c.validEntry key with _ | e
  · exact missInsert_max c key (f ())
  · rfl

theorem applyCacheOps_len_invariant (ops : List CacheOp) (c : LayoutCache)
    (hcap : 1 ≤ c.max_entries) (hle : c.len ≤ c.max_entries) :
    (applyCacheOps c ops).len ≤ (applyCacheOps c ops).max_entries ∧
      (applyCacheOps c ops).max_entries = c.max_entries := by
  induction ops generalizing c with
  | nil => exact ⟨hle, rfl⟩
  | cons op rest ih =>
    rcases op with ⟨k, v⟩ | _ | _
    · have h1 := getOrCompute_len_le c k (fun _ => v) hcap hle
      have h2 := getOrCompute_max c k (fun _ => v)
      have := ih ((c.getOrCompute k (fun _ => v)).cache)
        (h2 ▸ hcap) (h2 ▸ h1)
      simpa [applyCacheOps, applyCacheOp, h2] using this
    · have := ih c.invalidate_all hcap hle
      simpa [applyCacheOps, applyCacheOp, LayoutCache.invalidate_all,
        LayoutCache.len] using this
    · have h0 : (c.clear).len ≤ c.max_entries := by
        simp [LayoutCache.clear, LayoutCache.len]
      have := ih c.clear hcap h0
      simpa [applyCacheOps, applyCacheOp, LayoutCache.clear] using this

/-- C10 (counterexample): with capacity 0 a single `get_or_compute` leaves
one entry in the cache, so `len() ≤ capacity()` fails: the eviction guard
`len >= max_entries` evicts nothing from an empty table, yet the new entry
is inserted unconditionally. -/
theorem cache_capacity_zero_overflow :
    ¬ ((applyCacheOps (LayoutCache.new 0)
        [CacheOp.get (LayoutCacheKey.new ⟨0, 0, 0, 0⟩ [] .horizontal none) []]).len ≤
      (applyCacheOps (LayoutCache.new 0)
        [CacheOp.get (LayoutCacheKey.new ⟨0, 0, 0, 0⟩ [] .horizontal none) []]).capacity) := by
  decide

/-- C10 (amended): for every cache constructed with a positive capacity and
every sequence of `get_or_compute` / `invalidate_all` / `clear` calls,
`len()` never exceeds `capacity()`: a miss while full evicts before
inserting. -/
theorem cache_len_le_capacity (cap : Nat) (ops : List CacheOp)
    (hcap : 1 ≤ cap) :
    (applyCacheOps (LayoutCache.new cap) ops).len ≤
      (applyCacheOps (LayoutCache.new cap) ops).capacity := by
  have h := applyCacheOps_len_invariant ops (LayoutCache.new cap) hcap
    (by simp [LayoutCache.new, LayoutCache.len])
  exact h.1

theorem validEntry_eq_some (c : LayoutCache) (key : LayoutCacheKey)
    (e : CachedLayoutEntry) :
    c.validEntry key = some e ↔
      getEntry key c.entries = some e ∧ e.generation = c.generation := by
  rw [LayoutCache.validEntry]
  rcases hg : getEntry key c.entries with _ | e2
  · simp
  · dsimp only
    by_cases hgen : e2.generation = c.generation
    · simp only [if_pos hgen, Option.some.injEq]
      constructor
      · rintro rfl
        exact ⟨rfl, hgen⟩
      · rintro ⟨rfl, _⟩
        rfl
    · simp only [if_neg hgen, Option.some.injEq]
      constructor
      · intro h
        simp at h
      · rintro ⟨rfl, hg2⟩
        exact absurd hg2 hgen

theorem evictLru_generation (c : LayoutCache) :
    (c.evictLru).generation = c.generation := by
  rw [LayoutCache.evictLru]
  rcases h : minAccess c.entries with _ | p <;> rfl

theorem missInsert_generation (c : LayoutCache) (key : LayoutCacheKey)
    (chunks : List Rect) :
    (c.missInsert key chunks).generation = c.generation := by
  rw [LayoutCache.missInsert]
  by_cases hfull : c.max_entries ≤ c.entries.length
  · simp only [hfull, if_pos]
    exact evictLru_generation { c with misses := c.misses + 1 }
  · simp only [hfull, if_neg, not_false_iff]

theorem getEntry_missInsert (c : LayoutCache) (key : LayoutCacheKey)
    (chunks : List Rect) :
    getEntry key (c.missInsert key chunks).entries =
      some { chunks := chunks, generation := c.generation, access_count := 1 } := by
  rw [LayoutCache.missInsert]
  exact getEntry_setEntry_self _ _ _

theorem validEntry_after_getOrCompute (c : LayoutCache) (key : LayoutCacheKey)
    (f : Unit → List Rect) :
    ∃ e, (c.getOrCompute key f).cache.validEntry key = some e ∧
      e.chunks = (c.getOrCompute key f).chunks := by
  rcases hv : c.validEntry key with _ | e0
  · rw [LayoutCache.getOrCompute, hv]
    dsimp only
    refine ⟨{ chunks := f (), generation := c.generation, access_count := 1 },
      ?_, rfl⟩
    rw [validEntry_eq_some]
    exact ⟨getEntry_missInsert c key (f ()),
      (missInsert_generation c key (f ())).symm⟩
  · rw [LayoutCache.getOrCompute, hv]
    dsimp only
    have hv2 := (validEntry_eq_some c key e0).mp hv
    refine ⟨{ e0 with access_count := satBump e0.access_count }, ?_, rfl⟩
    rw [validEntry_eq_some]
    exact ⟨getEntry_setEntry_self _ _ _, hv2.2⟩

/-- C6: after any `get_or_compute` for a key, a second `get_or_compute` with
the same key and no intervening invalidation returns the exact same chunks,
does not run its compute closure, and records one extra hit. -/
theorem cache_second_call_hits (c : LayoutCache) (key : LayoutCacheKey)
    (f g : Unit → List Rect) :
    ((c.getOrCompute key f).cache.getOrCompute key g).chunks
        = (c.getOrCompute key f).chunks ∧
      ((c.getOrCompute key f).cache.getOrCompute key g).computed = false ∧
      ((c.getOrCompute key f).cache.getOrCompute key g).cache.hits
        = (c.getOrCompute key f).cache.hits + 1 := by
  obtain ⟨e, he, hch⟩ := validEntry_after_getOrCompute c key f
  rw [LayoutCache.getOrCompute, he]
  exact ⟨hch, rfl, rfl⟩

theorem hash64_foldl_lt (l : List Nat) (h : Nat) (hh : h < 2 ^ 64) :
    List.foldl hash64Step h l < 2 ^ 64 := by
  induction l generalizing h with
  | nil => exact hh
  | cons t ts ih =>
    rw [List.foldl_cons]
    exact ih _ (Nat.mod_lt _ (by positivity))

theorem hash64_lt (l : List Nat) : hash64 l < 2 ^ 64 :=
  hash64_foldl_lt l _ (by norm_num)

theorem ratioFamily_injective : Function.Injective ratioFamily := by
  intro a b hFeq
  rw [ratioFamily, ratioFamily] at hFeq
  by_cases haa : (a : Nat) < 2 ^ 64 <;> by_cases hbb : (b : Nat) < 2 ^ 64
  · rw [if_pos haa, if_pos hbb] at hFeq
    simp only [Constraint.ratio.injEq] at hFeq
    obtain ⟨h1, h2⟩ := hFeq
    apply Fin.ext
    rw [(Nat.div_add_mod (a : Nat) (2 ^ 32)).symm, h1, h2]
    exact Nat.div_add_mod _ _
  · rw [if_pos haa, if_neg hbb] at hFeq
    exact Constraint.noConfusion hFeq
  · rw [if_neg haa, if_pos hbb] at hFeq
    exact Constraint.noConfusion hFeq
  · apply Fin.ext
    have ha2 := a.isLt
    have hb2 := b.isLt
    omega

theorem exists_constraint_hash_collision :
    ∃ c1 c2 : Constraint,
      c1 ≠ c2 ∧ hashConstraints [c1] = hashConstraints [c2] := by
  obtain ⟨a, b, hab, heq⟩ := Fintype.exists_ne_map_eq_of_card_lt
    (fun i : Fin (2 ^ 64 + 1) =>
      (⟨hashConstraints [ratioFamily i], hash64_lt _⟩ : Fin (2 ^ 64)))
    (by rw [Fintype.card_fin, Fintype.card_fin]; exact Nat.lt_succ_self _)
  exact ⟨ratioFamily a, ratioFamily b,
    fun hFab => hab (ratioFamily_injective hFab),
    congrArg Fin.val heq⟩

/-- C9 (counterexample): it is not true that every two constraint lists
differing in a single constraint produce unequal cache keys.  The
`constraints_hash` field is a 64-bit digest, and there are more than `2^64`
single-constraint lists, so two of them (differing in that one constraint)
share a digest and hence the whole key. -/
theorem cache_key_collision_exists :
    ¬ (∀ (cs1 cs2 : List Constraint) (area : Rect) (dir : Direction)
        (hints : Option (List LayoutSizeHint)),
        SingleConstraintDiff cs1 cs2 →
        LayoutCacheKey.new area cs1 dir hints ≠
          LayoutCacheKey.new area cs2 dir hints) := by
  intro hcl
  obtain ⟨c1, c2, hne, hh⟩ := exists_constraint_hash_collision
  refine hcl [c1] [c2] ⟨0, 0, 0, 0⟩ .horizontal none
    ⟨[], c1, c2, [], rfl, rfl, hne⟩ ?_
  exact congrArg
    (fun h => LayoutCacheKey.mk 0 0 0 0 h Direction.horizontal none) hh

theorem encodeConstraints_append (xs ys : List Constraint) :
    encodeConstraints (xs ++ ys) =
      encodeConstraints xs ++ encodeConstraints ys := by
  induction xs with
  | nil => rfl
  | cons c cs ih => simp [encodeConstraints, ih]

theorem hashTokens_inj (c1 c2 : Constraint)
    (h : c1.hashTokens = c2.hashTokens) : c1 = c2 := by
  cases c1 <;> cases c2 <;> simp_all [Constraint.hashTokens]

/-- C9 (amended): the data fed to the hasher covers every constraint field
in order, so two constraint lists differing in a single constraint's variant
or payload always produce different hasher input streams; the change is
observable to the hash up to 64-bit digest collisions. -/
theorem constraint_change_observable (cs1 cs2 : List Constraint)
    (h : SingleConstraintDiff cs1 cs2) :
    encodeConstraints cs1 ≠ encodeConstraints cs2 := by
  obtain ⟨pre, c1, c2, suf, rfl, rfl, hne⟩ := h
  intro heq
  rw [encodeConstraints_append, encodeConstraints_append] at heq
  have heq2 := List.append_cancel_left heq
  rw [encodeConstraints, encodeConstraints] at heq2
  have hlen : c1.hashTokens.length = c2.hashTokens.length := by
    have hl := congrArg List.length heq2
    simp only [List.length_append] at hl
    omega
  exact hne (hashTokens_inj c1 c2 (List.append_inj heq2 hlen).1)

theorem constraint_change_observable_witness :
    SingleConstraintDiff [Constraint.fixed 20] [Constraint.min 20] ∧
      encodeConstraints [Constraint.fixed 20] ≠
        encodeConstraints [Constraint.min 20] :=
  ⟨⟨[], Constraint.fixed 20, Constraint.min 20, [], rfl, rfl, by decide⟩,
    constraint_change_observable _ _
      ⟨[], Constraint.fixed 20, Constraint.min 20, [], rfl, rfl, by decide⟩⟩

theorem tick_at_of_pending_none (s : ResizeCoalescer) (t : Nat)
    (hp : s.pending = none) : (s.tick_at t).2 = s := by
  rw [ResizeCoalescer.tick_at, hp]

theorem tick_track (w h t_f : Nat) (s : ResizeCoalescer) (t : Nat)
    (hs : TrackState w h t_f s) : TrackState w h t_f (s.tick_at t).2 := by
  obtain ⟨h1, h2⟩ := hs
  rcases hp : s.pending with _ | ⟨pw, ph⟩
  · rw [tick_at_of_pending_none s t hp]
    exact ⟨h1, h2⟩
  · have hwh : pw = w ∧ ph = h := by
      rcases h2 with h2 | ⟨h2, _⟩
      · rw [hp] at h2
        simpa using h2
      · rw [hp] at h2
        simp at h2
    obtain ⟨rfl, rfl⟩ := hwh
    rw [ResizeCoalescer.tick_at, hp]
    cases hr : s.regime <;> dsimp only
    · by_cases hcond : s.last_resize_at + s.config.steady_debounce_ms ≤ t
      · rw [if_pos hcond]
        exact ⟨h1, Or.inr ⟨rfl, rfl⟩⟩
      · rw [if_neg hcond]
        exact ⟨h1, Or.inl hp⟩
    · by_cases hcond : s.last_resize_at + s.config.burst_quiet_ms ≤ t ∨
          s.pending_since + s.config.hard_deadline_ms ≤ t
      · rw [if_pos hcond]
        exact ⟨h1, Or.inr ⟨rfl, rfl⟩⟩
      · rw [if_neg hcond]
        exact ⟨h1, Or.inl hp⟩

theorem tick_config (s : ResizeCoalescer) (t : Nat) :
    (s.tick_at t).2.config = s.config := by
  rw [ResizeCoalescer.tick_at]
  rcases s.pending with _ | ⟨w, h⟩
  · rfl
  · cases s.regime <;> dsimp only <;> split_ifs <;> rfl

theorem tick_last_resize (s : ResizeCoalescer) (t : Nat) :
    (s.tick_at t).2.last_resize_at = s.last_resize_at := by
  rw [ResizeCoalescer.tick_at]
  rcases s.pending with _ | ⟨w, h⟩
  · rfl
  · cases s.regime <;> dsimp only <;> split_ifs <;> rfl

theorem coRun_ticks_track (w h t_f : Nat) (es : List CoEvent)
    (hticks : ∀ e ∈ es, e.isTick = true) (s : ResizeCoalescer)
    (hs : TrackState w h t_f s) : TrackState w h t_f (coRun s es) := by
  induction es generalizing s with
  | nil => exact hs
  | cons e rest ih =>
    rcases e with ⟨w2, h2, t2⟩ | t2
    · have := hticks (CoEvent.resize w2 h2 t2) (by simp)
      simp [CoEvent.isTick] at this
    · rw [coRun]
      exact ih (fun e he => hticks e (List.mem_cons_of_mem _ he)) _
        (tick_track w h t_f s t2 hs)

theorem coStep_config (s : ResizeCoalescer) (e : CoEvent) :
    (coStep s e).2.config = s.config := by
  cases e with
  | resize w h t => rfl
  | tick t => exact tick_config s t

theorem coRun_config (s : ResizeCoalescer) (es : List CoEvent) :
    (coRun s es).config = s.config := by
  induction es generalizing s with
  | nil => rfl
  | cons e rest ih =>
    rw [coRun, ih, coStep_config]

theorem coRun_append (s : ResizeCoalescer) (xs ys : List CoEvent) :
    coRun s (xs ++ ys) = coRun (coRun s xs) ys := by
  induction xs generalizing s with
  | nil => rfl
  | cons e rest ih =>
    rw [List.cons_append, coRun, coRun, ih]

theorem handle_config (s : ResizeCoalescer) (w h t : Nat) :
    (s.handle_resize_at w h t).2.config = s.config := rfl

theorem handle_track (s : ResizeCoalescer) (w h t : Nat) :
    TrackState w h t (s.handle_resize_at w h t).2 :=
  ⟨rfl, Or.inl rfl⟩

theorem tick_applies (s : ResizeCoalescer) (t : Nat)
    (hdeb : s.config.steady_debounce_ms ≤
      s.config.hard_deadline_ms + s.config.burst_quiet_ms)
    (ht : s.last_resize_at + s.config.hard_deadline_ms +
      s.config.burst_quiet_ms ≤ t) :
    (s.tick_at t).2.pending = none ∧
      ∀ p, s.pending = some p → (s.tick_at t).2.last_applied = p := by
  rcases hp : s.pending with _ | ⟨pw, ph⟩
  · rw [tick_at_of_pending_none s t hp]
    exact ⟨hp, fun p hps => Option.noConfusion hps⟩
  · rw [ResizeCoalescer.tick_at, hp]
    cases hr : s.regime <;> dsimp only
    · have hcond : s.last_resize_at + s.config.steady_debounce_ms ≤ t := by
        omega
      rw [if_pos hcond]
      refine ⟨rfl, fun p hps => ?_⟩
      obtain rfl := Option.some.inj hps
      rfl
    · have hcond : s.last_resize_at + s.config.burst_quiet_ms ≤ t ∨
          s.pending_since + s.config.hard_deadline_ms ≤ t :=
        Or.inl (by omega)
      rw [if_pos hcond]
      refine ⟨rfl, fun p hps => ?_⟩
      obtain rfl := Option.some.inj hps
      rfl

theorem tick_applies_steady (s : ResizeCoalescer) (t : Nat)
    (hreg : s.regime = .steady)
    (ht : s.last_resize_at + s.config.steady_debounce_ms ≤ t) :
    (s.tick_at t).2.pending = none := by
  rcases hp : s.pending with _ | ⟨pw, ph⟩
  · rw [tick_at_of_pending_none s t hp]
    exact hp
  · rw [ResizeCoalescer.tick_at, hp, hreg]
    dsimp only
    rw [if_pos ht]

/-- C3: for every sequence of resizes ending in `(w_f, h_f)` (possibly with
interleaved ticks afterwards), a draining tick past the deadline bound makes
`last_applied` equal to `(w_f, h_f)`: the final resize is never dropped, and
every apply reports the most recently observed size. -/
theorem coalescer_latest_wins (cfg : CoalescerConfig) (init : Nat × Nat)
    (es1 : List CoEvent) (w_f h_f t_f : Nat) (es2 : List CoEvent)
    (hticks : ∀ e ∈ es2, e.isTick = true)
    (hdeb : cfg.steady_debounce_ms ≤ cfg.hard_deadline_ms + cfg.burst_quiet_ms)
    (T : Nat)
    (hT : t_f + cfg.hard_deadline_ms + cfg.burst_quiet_ms ≤ T) :
    ((coRun (ResizeCoalescer.new cfg init)
        (es1 ++ CoEvent.resize w_f h_f t_f :: es2)).tick_at T).2.last_applied
      = (w_f, h_f) := by
  rw [coRun_append]
  set s1 := coRun (ResizeCoalescer.new cfg init) es1 with hs1
  rw [coRun]
  have htrack := coRun_ticks_track w_f h_f t_f es2 hticks _
    (show TrackState w_f h_f t_f (coStep s1 (CoEvent.resize w_f h_f t_f)).2 from
      handle_track s1 w_f h_f t_f)
  set s3 := coRun (coStep s1 (CoEvent.resize w_f h_f t_f)).2 es2 with hs3
  have hcfg : s3.config = cfg := by
    rw [hs3, coRun_config, coStep_config, hs1, coRun_config]
    rfl
  obtain ⟨hlast, hdisj⟩ := htrack
  obtain ⟨hpend, happ⟩ := tick_applies s3 T
    (by rw [hcfg]; exact hdeb) (by rw [hcfg, hlast]; exact hT)
  rcases hdisj with hsome | ⟨hnone, happlied⟩
  · exact happ (w_f, h_f) hsome
  · rw [tick_at_of_pending_none s3 T hnone]
    exact happlied

theorem coalescer_latest_wins_witness :
    (∀ e ∈ ([] : List CoEvent), e.isTick = true) ∧
      (20 : Nat) ≤ 250 + 50 ∧ (10 : Nat) + 250 + 50 ≤ 310 ∧
      ((coRun (ResizeCoalescer.new ⟨150, 20, 3, 100, 50, 250⟩ (80, 24))
          ([] ++ CoEvent.resize 137 42 10 :: [])).tick_at 310).2.last_applied
        = (137, 42) :=
  ⟨(by intro e he; cases he), (by decide), (by decide),
    coalescer_latest_wins ⟨150, 20, 3, 100, 50, 250⟩ (80, 24) [] 137 42 10 []
      (by intro e he; cases he) (by decide) 310 (by decide)⟩

/-- C4: for every resize sequence ending at time `t_f` (possibly with
interleaved ticks afterwards), a tick at any time at least
`hard_deadline_ms + burst_quiet_ms` past `t_f` leaves no pending resize;
and if the coalescer ended in the Steady regime, any tick at least
`steady_debounce_ms` past `t_f` already clears it. -/
theorem coalescer_bounded_latency (cfg : CoalescerConfig) (init : Nat × Nat)
    (es1 : List CoEvent) (w_f h_f t_f : Nat) (es2 : List CoEvent)
    (hticks : ∀ e ∈ es2, e.isTick = true)
    (hdeb : cfg.steady_debounce_ms ≤ cfg.hard_deadline_ms + cfg.burst_quiet_ms)
    (T : Nat)
    (hT : t_f + cfg.hard_deadline_ms + cfg.burst_quiet_ms ≤ T) :
    ((coRun (ResizeCoalescer.new cfg init)
        (es1 ++ CoEvent.resize w_f h_f t_f :: es2)).tick_at T).2.has_pending
        = false ∧
      ((coRun (ResizeCoalescer.new cfg init)
          (es1 ++ CoEvent.resize w_f h_f t_f :: es2)).regime = Regime.steady →
        ∀ T2, t_f + cfg.steady_debounce_ms ≤ T2 →
          ((coRun (ResizeCoalescer.new cfg init)
              (es1 ++ CoEvent.resize w_f h_f t_f :: es2)).tick_at T2).2.has_pending
            = false) := by
  rw [coRun_append]
  set s1 := coRun (ResizeCoalescer.new cfg init) es1 with hs1
  rw [coRun]
  have htrack := coRun_ticks_track w_f h_f t_f es2 hticks _
    (show TrackState w_f h_f t_f (coStep s1 (CoEvent.resize w_f h_f t_f)).2 from
      handle_track s1 w_f h_f t_f)
  set s3 := coRun (coStep s1 (CoEvent.resize w_f h_f t_f)).2 es2 with hs3
  have hcfg : s3.config = cfg := by
    rw [hs3, coRun_config, coStep_config, hs1, coRun_config]
    rfl
  obtain ⟨hlast, _⟩ := htrack
  constructor
  · obtain ⟨hpend, _⟩ := tick_applies s3 T
      (by rw [hcfg]; exact hdeb) (by rw [hcfg, hlast]; exact hT)
    rw [ResizeCoalescer.has_pending, hpend]
    rfl
  · intro hreg T2 hT2
    have hpend := tick_applies_steady s3 T2 hreg
      (by rw [hcfg, hlast]; exact hT2)
    rw [ResizeCoalescer.has_pending, hpend]
    rfl

theorem coalescer_bounded_latency_witness :
    (∀ e ∈ ([] : List CoEvent), e.isTick = true) ∧
      (20 : Nat) ≤ 250 + 50 ∧ (10 : Nat) + 250 + 50 ≤ 310 ∧
      ((coRun (ResizeCoalescer.new ⟨150, 20, 3, 100, 50, 250⟩ (80, 24))
          ([] ++ CoEvent.resize 137 42 10 :: [])).tick_at 310).2.has_pending
        = false :=
  ⟨(by intro e he; cases he), (by decide), (by decide),
    (coalescer_bounded_latency ⟨150, 20, 3, 100, 50, 250⟩ (80, 24) [] 137 42 10
      [] (by intro e he; cases he) (by decide) 310 (by decide)).1⟩

/-- C5: the coalescer is deterministic — two runs over equal timestamped
event sequences with equal configurations and initial sizes produce
identical sequences of decisions (same applies, same sizes, same
forced-by-deadline flags).  Time enters only through the `t` arguments of
`handle_resize_at` and `tick_at`; the model reads no clock. -/
theorem coalescer_deterministic (cfg1 cfg2 : CoalescerConfig)
    (init1 init2 : Nat × Nat) (es1 es2 : List CoEvent)
    (hc : cfg1 = cfg2) (hi : init1 = init2) (he : es1 = es2) :
    coActions (ResizeCoalescer.new cfg1 init1) es1 =
      coActions (ResizeCoalescer.new cfg2 init2) es2 := by
  subst hc
  subst hi
  subst he
  rfl

theorem coalescer_deterministic_witness :
    ((⟨150, 20, 3, 100, 50, 250⟩ : CoalescerConfig) = ⟨150, 20, 3, 100, 50, 250⟩) ∧
      ((80, 24) : Nat × Nat) = (80, 24) ∧
      ([CoEvent.resize 100 40 5, CoEvent.tick 6, CoEvent.resize 137 42 10,
          CoEvent.tick 400] =
        [CoEvent.resize 100 40 5, CoEvent.tick 6, CoEvent.resize 137 42 10,
          CoEvent.tick 400]) ∧
      coActions (ResizeCoalescer.new ⟨150, 20, 3, 100, 50, 250⟩ (80, 24))
          [CoEvent.resize 100 40 5, CoEvent.tick 6, CoEvent.resize 137 42 10,
            CoEvent.tick 400] =
        coActions (ResizeCoalescer.new ⟨150, 20, 3, 100, 50, 250⟩ (80, 24))
          [CoEvent.resize 100 40 5, CoEvent.tick 6, CoEvent.resize 137 42 10,
            CoEvent.tick 400] :=
  ⟨rfl, rfl, rfl,
    coalescer_deterministic _ _ _ _ _ _ rfl rfl rfl⟩

theorem zipWith_get?_some {α β γ : Type} (f : α → β → γ) :
    ∀ (l1 : List α) (l2 : List β) (i : Nat) (x : α),
      l1.get? i = some x → l1.length = l2.length →
      ∃ y, l2.get? i = some y ∧ (List.zipWith f l1 l2).get? i = some (f x y) := by
  intro l1
  induction l1 with
  | nil => intro l2 i x hx _; simp at hx
  | cons a as ih =>
    intro l2 i x hx hlen
    cases l2 with
    | nil => simp at hlen
    | cons b bs =>
      cases i with
      | zero =>
        obtain rfl := Option.some.inj hx
        exact ⟨b, rfl, rfl⟩
      | succ i2 =>
        simp only [List.length_cons, Nat.succ.injEq] at hlen
        obtain ⟨y, hy, hz⟩ := ih bs i2 x hx hlen
        exact ⟨y, hy, hz⟩

theorem addLeftover_get?_zero :
    ∀ (ws bs : List Nat) (n i b : Nat),
      ws.get? i = some 0 → bs.get? i = some b →
      (addLeftover n ws bs).get? i = some b := by
  intro ws
  induction ws with
  | nil => intro bs n i b hw _; simp at hw
  | cons w ws2 ih =>
    intro bs n i b hw hb
    cases bs with
    | nil => simp at hb
    | cons b0 bs2 =>
      cases n with
      | zero => exact hb
      | succ n2 =>
        cases i with
        | zero =>
          obtain rfl := Option.some.inj hw
          obtain rfl := Option.some.inj hb
          rw [addLeftover, if_neg (by omega)]
          rfl
        | succ i2 =>
          rw [addLeftover]
          split_ifs with hwpos
          · exact ih bs2 n2 i2 b hw hb
          · exact ih bs2 (n2 + 1) i2 b hw hb

theorem applySizes_get? :
    ∀ (cs : List Constraint) (ds es : List Nat) (i : Nat)
      (c : Constraint) (d e : Nat),
      cs.get? i = some c → ds.get? i = some d → es.get? i = some e →
      (applySizes cs ds es).get? i = some (constraintSize c d e) := by
  intro cs
  induction cs with
  | nil => intro ds es i c d e hc _ _; simp at hc
  | cons c0 cs2 ih =>
    intro ds es i c d e hc hd he
    cases ds with
    | nil => simp at hd
    | cons d0 ds2 =>
      cases es with
      | nil => simp at he
      | cons e0 es2 =>
        cases i with
        | zero =>
          obtain rfl := Option.some.inj hc
          obtain rfl := Option.some.inj hd
          obtain rfl := Option.some.inj he
          rfl
        | succ i2 => exact ih ds2 es2 i2 c d e hc hd he

theorem pipeline_ratio (cs : List Constraint) (ds : List Nat)
    (slack W n i a b d : Nat)
    (hc : cs.get? i = some (Constraint.ratio a b))
    (hd : ds.get? i = some d) :
    (applySizes cs ds
        (addLeftover n (cs.map flexWeight)
          (baseShares slack W (cs.map flexWeight)))).get? i = some d := by
  have hw : (cs.map flexWeight).get? i = some 0 := by
    rw [List.get?_map, hc]
    rfl
  have hbase : (baseShares slack W (cs.map flexWeight)).get? i = some 0 := by
    rw [baseShares, List.get?_map, hw]
    simp
  have hex := addLeftover_get?_zero (cs.map flexWeight) _ n i 0 hw hbase
  rw [applySizes_get? cs ds _ i _ d 0 hc hd hex]
  show some (constraintSize (Constraint.ratio a b) d 0) = some d
  simp [constraintSize]

theorem flexSizes_ratio (available : Nat) (cs : List Constraint)
    (hints : List LayoutSizeHint) (i a b : Nat)
    (hc : cs.get? i = some (Constraint.ratio a b)) :
    (flexSizes available cs hints).get? i =
      some (desiredSize available defaultHint (Constraint.ratio a b)) := by
  have hlen : cs.length = (padHints cs.length hints).length := by
    simp [padHints]
  obtain ⟨h0, hh0, hd⟩ := zipWith_get?_some
    (fun c h => desiredSize available h c) cs (padHints cs.length hints) i
    (Constraint.ratio a b) hc hlen
  exact pipeline_ratio cs _ _ _ _ i a b _ hc hd

/-- C1: over a 100-wide horizontal area, `[Ratio(1,4)]` splits to a single
child of width 25 (not 100), `[Ratio(1,4), Fill]` splits to widths
`[25, 75]`, and in general a `Ratio(a,b)` constraint is always assigned
exactly its fixed fraction `round(a·available/b)` of the container — it
never competes for slack as a flexible weight. -/
theorem ratio_is_fixed_fraction :
    ((splitH { x := 0, y := 0, width := 100, height := 10 }
        [Constraint.ratio 1 4] []).map Rect.width = [25]) ∧
      ((splitH { x := 0, y := 0, width := 100, height := 10 }
          [Constraint.ratio 1 4, Constraint.fill] []).map Rect.width
        = [25, 75]) ∧
      ∀ (available : Nat) (cs : List Constraint)
        (hints : List LayoutSizeHint) (i a b : Nat),
        cs.get? i = some (Constraint.ratio a b) →
        (flexSizes available cs hints).get? i =
          some (desiredSize available defaultHint (Constraint.ratio a b)) :=
  ⟨by decide, by decide,
    fun available cs hints i a b hc =>
      flexSizes_ratio available cs hints i a b hc⟩

theorem ratio_is_fixed_fraction_witness :
    ([Constraint.ratio 1 4, Constraint.fill].get? 0
        = some (Constraint.ratio 1 4)) ∧
      (flexSizes 100 [Constraint.ratio 1 4, Constraint.fill] []).get? 0 =
        some (desiredSize 100 defaultHint (Constraint.ratio 1 4)) :=
  ⟨by decide,
    ratio_is_fixed_fraction.2.2 100 [Constraint.ratio 1 4, Constraint.fill]
      [] 0 1 4 (by decide)⟩

theorem except_bind_ok {α β : Type} (a : α)
    (f : α → Except ReplayError β) : (Except.ok a >>= f) = f a := rfl

theorem except_bind_error {α β : Type} (e : ReplayError)
    (f : α → Except ReplayError β) :
    ((Except.error e : Except ReplayError α) >>= f) = Except.error e := rfl

theorem replayStep_ok_iff (g : TraceGrid) (r : FrameRecord) (g2 : TraceGrid) :
    replayStep g r = .ok g2 ↔
      frameApply g r = .ok g2 ∧ g2.checksum = r.checksum := by
  rw [replayStep]
  cases hap : frameApply g r with
  | error e =>
    rw [except_bind_error]
    constructor
    · intro h
      cases h
    · rintro ⟨h1, _⟩
      cases h1
  | ok g3 =>
    rw [except_bind_ok]
    by_cases hck : g3.checksum ≠ r.checksum
    · rw [if_pos hck]
      constructor
      · intro h
        cases h
      · rintro ⟨h1, h2⟩
        obtain rfl := Except.ok.inj h1
        exact absurd h2 hck
    · rw [if_neg hck]
      push_neg at hck
      constructor
      · intro h
        obtain rfl := Except.ok.inj h
        exact ⟨rfl, hck⟩
      · rintro ⟨h1, _⟩
        obtain rfl := Except.ok.inj h1
        rfl

theorem replayGo_ok_iff :
    ∀ (rs : List FrameRecord) (g : TraceGrid) (n : Nat) (last : Option Nat),
      (∃ s, replayGo g n last rs = .ok s) ↔ AllMatch g rs := by
  intro rs
  induction rs with
  | nil =>
    intro g n last
    exact ⟨fun _ => trivial, fun _ => ⟨_, rfl⟩⟩
  | cons r rs2 ih =>
    intro g n last
    rw [replayGo, AllMatch]
    cases hstep : replayStep g r with
    | error e =>
      rw [except_bind_error]
      constructor
      · rintro ⟨s, hs⟩
        cases hs
      · rintro ⟨g2, hap, hck, _⟩
        have : replayStep g r = .ok g2 :=
          (replayStep_ok_iff g r g2).mpr ⟨hap, hck⟩
        rw [hstep] at this
        cases this
    | ok g2 =>
      rw [except_bind_ok]
      obtain ⟨hap, hck⟩ := (replayStep_ok_iff g r g2).mp hstep
      constructor
      · intro hex
        exact ⟨g2, hap, hck, (ih g2 (n + 1) (some g2.checksum)).mp hex⟩
      · rintro ⟨g3, hap3, hck3, hall3⟩
        have h3 : replayStep g r = .ok g3 :=
          (replayStep_ok_iff g r g3).mpr ⟨hap3, hck3⟩
        rw [hstep] at h3
        obtain rfl := Except.ok.inj h3
        exact (ih g2 (n + 1) (some g2.checksum)).mpr hall3

theorem replayGo_frames :
    ∀ (rs : List FrameRecord) (g : TraceGrid) (n : Nat) (last : Option Nat)
      (s : ReplaySummary), replayGo g n last rs = .ok s →
      s.frames = n + rs.length := by
  intro rs
  induction rs with
  | nil =>
    intro g n last s h
    obtain rfl := Except.ok.inj h
    simp
  | cons r rs2 ih =>
    intro g n last s h
    rw [replayGo] at h
    cases hstep : replayStep g r with
    | error e =>
      rw [hstep, except_bind_error] at h
      cases h
    | ok g2 =>
      rw [hstep, except_bind_ok] at h
      have := ih g2 (n + 1) (some g2.checksum) s h
      simp only [List.length_cons]
      omega

theorem replayGo_first_mismatch :
    ∀ (pre : List FrameRecord) (g : TraceGrid) (n : Nat) (last : Option Nat)
      (r : FrameRecord) (rest : List FrameRecord) (gpre g2 : TraceGrid),
      AllMatch g pre → gridAfter g pre = .ok gpre →
      frameApply gpre r = .ok g2 → g2.checksum ≠ r.checksum →
      replayGo g n last (pre ++ r :: rest) =
        .error (.checksumMismatch r.frame_idx r.checksum g2.checksum) := by
  intro pre
  induction pre with
  | nil =>
    intro g n last r rest gpre g2 _ hga hap hck
    rw [gridAfter] at hga
    obtain rfl := Except.ok.inj hga
    have hstep : replayStep g r =
        .error (.checksumMismatch r.frame_idx r.checksum g2.checksum) := by
      rw [replayStep, hap, except_bind_ok, if_pos hck]
    rw [List.nil_append, replayGo, hstep, except_bind_error]
  | cons p pre2 ih =>
    intro g n last r rest gpre g2 hall hga hap hck
    obtain ⟨gp, hpap, hpck, hall2⟩ := hall
    rw [gridAfter, hpap, except_bind_ok] at hga
    have hstep : replayStep g p = .ok gp :=
      (replayStep_ok_iff g p gp).mpr ⟨hpap, hpck⟩
    rw [List.cons_append, replayGo, hstep, except_bind_ok]
    exact ih gp (n + 1) (some gp.checksum) r rest gpre g2 hall2 hga hap hck

/-- C8: `replay_trace` applies each frame record's payload to the
reconstructed grid in file order and recomputes the FNV-1a checksum after
each frame.  It returns Ok exactly when there is at least one frame record
and every record's recomputed checksum matches its `checksum` field; and
when a prefix of records all match but the next frame's recomputed checksum
differs, it returns the checksum-mismatch error of that first offending
frame. -/
theorem replay_trace_checksum_gate :
    (∀ records : List FrameRecord,
      (∃ s, replay_trace records = .ok s) ↔
        (records ≠ [] ∧ AllMatch (TraceGrid.new 0 0) records)) ∧
      (∀ (pre : List FrameRecord) (r : FrameRecord) (rest : List FrameRecord)
        (gpre g2 : TraceGrid),
        AllMatch (TraceGrid.new 0 0) pre →
        gridAfter (TraceGrid.new 0 0) pre = .ok gpre →
        frameApply gpre r = .ok g2 → g2.checksum ≠ r.checksum →
        replay_trace (pre ++ r :: rest) =
          .error (.checksumMismatch r.frame_idx r.checksum g2.checksum)) := by
  constructor
  · intro records
    rw [replay_trace]
    cases hgo : replayGo (TraceGrid.new 0 0) 0 none records with
    | error e =>
      rw [except_bind_error]
      constructor
      · rintro ⟨s, hs⟩
        cases hs
      · rintro ⟨_, hall⟩
        obtain ⟨s, hs⟩ :=
          (replayGo_ok_iff records (TraceGrid.new 0 0) 0 none).mpr hall
        rw [hgo] at hs
        cases hs
    | ok s =>
      rw [except_bind_ok]
      have hframes := replayGo_frames records (TraceGrid.new 0 0) 0 none s hgo
      constructor
      · rintro ⟨s2, hs2⟩
        by_cases hz : s.frames = 0
        · rw [if_pos hz] at hs2
          cases hs2
        · refine ⟨?_, (replayGo_ok_iff records (TraceGrid.new 0 0) 0
            none).mp ⟨s, hgo⟩⟩
          intro hnil
          rw [hnil] at hframes
          simp at hframes
          omega
      · rintro ⟨hne, _⟩
        have hz : s.frames ≠ 0 := by
          rw [hframes, Nat.zero_add]
          intro hlen
          exact hne (List.length_eq_zero.mp hlen)
        rw [if_neg hz]
        exact ⟨s, rfl⟩
  · intro pre r rest gpre g2 hall hga hap hck
    rw [replay_trace,
      replayGo_first_mismatch pre (TraceGrid.new 0 0) 0 none r rest gpre g2
        hall hga hap hck,
      except_bind_error]

theorem replay_trace_checksum_gate_witness :
    AllMatch (TraceGrid.new 0 0) [] ∧
      gridAfter (TraceGrid.new 0 0) [] = .ok (TraceGrid.new 0 0) ∧
      frameApply (TraceGrid.new 0 0)
          { frame_idx := 0, cols := 0, rows := 0,
            payload := FramePayload.noPayload, checksum := 0 }
        = .ok (TraceGrid.new 0 0) ∧
      (TraceGrid.new 0 0).checksum ≠ 0 ∧
      replay_trace
          [{ frame_idx := 0, cols := 0, rows := 0,
             payload := FramePayload.noPayload, checksum := 0 }]
        = .error (.checksumMismatch 0 0 (TraceGrid.new 0 0).checksum) :=
  ⟨trivial, rfl, rfl, by decide,
    replay_trace_checksum_gate.2 []
      { frame_idx := 0, cols := 0, rows := 0,
        payload := FramePayload.noPayload, checksum := 0 }
      [] (TraceGrid.new 0 0) (TraceGrid.new 0 0) trivial rfl rfl (by decide)⟩

theorem SpansWF_mono (l : List (Nat × Nat)) (m m2 : Nat) (hle : m2 ≤ m)
    (h : SpansWF m l) : SpansWF m2 l := by
  cases l with
  | nil => trivial
  | cons s rest =>
    obtain ⟨lo, hi⟩ := s
    rw [SpansWF] at h ⊢
    exact ⟨Nat.le_trans hle h.1, h.2.1, h.2.2⟩

theorem covered_nil (x : Nat) : ¬ covered [] x := by
  rintro ⟨s, hs, _⟩
  cases hs

theorem covered_cons_of {l : List (Nat × Nat)} {s : Nat × Nat} {x : Nat}
    (h : covered l x) : covered (s :: l) x := by
  obtain ⟨s2, hs2, h1, h2⟩ := h
  exact ⟨s2, List.mem_cons_of_mem _ hs2, h1, h2⟩

theorem covered_lb : ∀ (l : List (Nat × Nat)) (m x : Nat),
    SpansWF m l → covered l x → m ≤ x := by
  intro l
  induction l with
  | nil => intro m x _ h; exact absurd h (covered_nil x)
  | cons s rest ih =>
    intro m x hwf hc
    obtain ⟨lo, hi⟩ := s
    rw [SpansWF] at hwf
    obtain ⟨h1, h2, h3⟩ := hwf
    obtain ⟨s2, hs2, hc1, hc2⟩ := hc
    rcases List.mem_cons.mp hs2 with rfl | hmem
    · exact Nat.le_trans h1 hc1
    · have := ih (hi + 2) x h3 ⟨s2, hmem, hc1, hc2⟩
      omega

theorem addCol_wf : ∀ (l : List (Nat × Nat)) (m x : Nat),
    m ≤ x → SpansWF m l → SpansWF m (addCol x l) := by
  intro l
  induction l with
  | nil =>
    intro m x hmx _
    rw [addCol, SpansWF]
    exact ⟨hmx, Nat.le_refl x, trivial⟩
  | cons s rest ih =>
    intro m x hmx hwf
    obtain ⟨lo, hi⟩ := s
    rw [SpansWF] at hwf
    obtain ⟨h1, h2, h3⟩ := hwf
    rw [addCol]
    split_ifs with hc1 hc2 hc3 hc4
    · rw [SpansWF]
      refine ⟨hmx, Nat.le_refl x, ?_⟩
      rw [SpansWF]
      exact ⟨by omega, h2, h3⟩
    · rw [SpansWF]
      exact ⟨hmx, by omega, h3⟩
    · rw [SpansWF]
      exact ⟨h1, h2, h3⟩
    · have h3' : SpansWF (x + 1) rest := by
        have he : hi + 2 = x + 1 := by omega
        rw [← he]
        exact h3
      cases rest with
      | nil =>
        rw [mergeAt, SpansWF]
        exact ⟨h1, by omega, trivial⟩
      | cons s2 r2 =>
        obtain ⟨lo2, hi2⟩ := s2
        rw [SpansWF] at h3'
        obtain ⟨h4, h5, h6⟩ := h3'
        rw [mergeAt]
        split_ifs with hm
        · rw [SpansWF]
          exact ⟨h1, by omega, h6⟩
        · rw [SpansWF]
          refine ⟨h1, by omega, ?_⟩
          rw [SpansWF]
          exact ⟨by omega, h5, h6⟩
    · rw [SpansWF]
      exact ⟨h1, h2, ih (hi + 2) x (by omega) h3⟩

theorem addCol_covers_self : ∀ (l : List (Nat × Nat)) (m x : Nat),
    SpansWF m l → covered (addCol x l) x := by
  intro l
  induction l with
  | nil =>
    intro m x _
    rw [addCol]
    exact ⟨(x, x), by simp, Nat.le_refl x, Nat.le_refl x⟩
  | cons s rest ih =>
    intro m x hwf
    obtain ⟨lo, hi⟩ := s
    rw [SpansWF] at hwf
    obtain ⟨h1, h2, h3⟩ := hwf
    rw [addCol]
    split_ifs with hc1 hc2 hc3 hc4
    · exact ⟨(x, x), by simp, Nat.le_refl x, Nat.le_refl x⟩
    · exact ⟨(x, hi), by simp, Nat.le_refl x, by omega⟩
    · exact ⟨(lo, hi), by simp, by omega, hc3⟩
    · cases rest with
      | nil =>
        rw [mergeAt]
        exact ⟨(lo, x), by simp, by omega, Nat.le_refl x⟩
      | cons s2 r2 =>
        obtain ⟨lo2, hi2⟩ := s2
        have h3' : SpansWF (x + 1) ((lo2, hi2) :: r2) := by
          have he : hi + 2 = x + 1 := by omega
          rw [← he]
          exact h3
        rw [SpansWF] at h3'
        rw [mergeAt]
        split_ifs with hm
        · exact ⟨(lo, hi2), by simp, by omega, by omega⟩
        · exact ⟨(lo, x), by simp, by omega, Nat.le_refl x⟩
    · exact covered_cons_of (ih (hi + 2) x h3)

theorem addCol_covers_mono : ∀ (l : List (Nat × Nat)) (m x z : Nat),
    SpansWF m l → covered l z → covered (addCol x l) z := by
  intro l
  induction l with
  | nil => intro m x z _ h; exact absurd h (covered_nil z)
  | cons s rest ih =>
    intro m x z hwf hc
    obtain ⟨lo, hi⟩ := s
    rw [SpansWF] at hwf
    obtain ⟨h1, h2, h3⟩ := hwf
    obtain ⟨s2, hs2, hz1, hz2⟩ := hc
    rw [addCol]
    split_ifs with hc1 hc2 hc3 hc4
    · exact covered_cons_of ⟨s2, hs2, hz1, hz2⟩
    · rcases List.mem_cons.mp hs2 with rfl | hmem
      · exact ⟨(x, hi), by simp, by omega, hz2⟩
      · exact covered_cons_of ⟨s2, hmem, hz1, hz2⟩
    · exact ⟨s2, hs2, hz1, hz2⟩
    · rcases List.mem_cons.mp hs2 with rfl | hmem
      · cases rest with
        | nil =>
          rw [mergeAt]
          exact ⟨(lo, x), by simp, hz1, by omega⟩
        | cons s3 r3 =>
          obtain ⟨lo2, hi2⟩ := s3
          have h3' : SpansWF (hi + 2) ((lo2, hi2) :: r3) := h3
          rw [SpansWF] at h3'
          rw [mergeAt]
          split_ifs with hm
          · exact ⟨(lo, hi2), by simp, hz1, by omega⟩
          · exact ⟨(lo, x), by simp, hz1, by omega⟩
      · cases rest with
        | nil => simp at hmem
        | cons s3 r3 =>
          obtain ⟨lo2, hi2⟩ := s3
          rw [mergeAt]
          split_ifs with hm
          · rcases List.mem_cons.mp hmem with rfl | hmem2
            · exact ⟨(lo, hi2), by simp, by omega, hz2⟩
            · exact covered_cons_of ⟨s2, hmem2, hz1, hz2⟩
          · exact covered_cons_of ⟨s2, hmem, hz1, hz2⟩
    · rcases List.mem_cons.mp hs2 with rfl | hmem
      · exact ⟨(lo, hi), by simp, hz1, hz2⟩
      · exact covered_cons_of (ih (hi + 2) x z h3 ⟨s2, hmem, hz1, hz2⟩)

theorem addCol_bound : ∀ (l : List (Nat × Nat)) (x w : Nat),
    x < w → (∀ s ∈ l, s.2 < w) → ∀ s ∈ addCol x l, s.2 < w := by
  intro l
  induction l with
  | nil =>
    intro x w hx _ s hs
    rw [addCol] at hs
    rcases List.mem_cons.mp hs with rfl | hs2
    · exact hx
    · simp at hs2
  | cons s0 rest ih =>
    intro x w hx hb s hs
    obtain ⟨lo, hi⟩ := s0
    rw [addCol] at hs
    split_ifs at hs with hc1 hc2 hc3 hc4
    · rcases List.mem_cons.mp hs with rfl | hs2
      · exact hx
      · exact hb s hs2
    · rcases List.mem_cons.mp hs with rfl | hs2
      · exact hb (lo, hi) (by simp)
      · exact hb s (List.mem_cons_of_mem _ hs2)
    · exact hb s hs
    · cases rest with
      | nil =>
        rw [mergeAt] at hs
        rcases List.mem_cons.mp hs with rfl | hs2
        · exact hx
        · simp at hs2
      | cons s3 r3 =>
        obtain ⟨lo2, hi2⟩ := s3
        rw [mergeAt] at hs
        split_ifs at hs with hm
        · rcases List.mem_cons.mp hs with rfl | hs2
          · exact hb (lo2, hi2) (by simp)
          · exact hb s (List.mem_cons_of_mem _ (List.mem_cons_of_mem _ hs2))
        · rcases List.mem_cons.mp hs with rfl | hs2
          · exact hx
          · exact hb s (List.mem_cons_of_mem _ hs2)
    · rcases List.mem_cons.mp hs with rfl | hs2
      · exact hb (lo, hi) (by simp)
      · exact ih x w hx (fun s3 hs3 => hb s3 (List.mem_cons_of_mem _ hs3)) s hs2

theorem diffColsIn_nil (differs : Nat → Bool) (lo len : Nat)
    (h : ∀ x, lo ≤ x → x < lo + len → differs x = false) :
    diffColsIn differs lo len = [] := by
  rw [diffColsIn]
  apply List.filter_eq_nil_iff.mpr
  intro x hx
  obtain ⟨h1, h2⟩ := List.mem_range'_1.mp hx
  simp [h x h1 h2]

theorem runsOfAux_append :
    ∀ (xs B : List Nat) (x0 x1 : Nat),
      (∀ u ∈ x1 :: xs, ∀ v ∈ B, u + 1 < v) →
      runsOfAux x0 x1 (xs ++ B) = runsOfAux x0 x1 xs ++ runsOf B := by
  intro xs
  induction xs with
  | nil =>
    intro B x0 x1 hsep
    cases B with
    | nil => rfl
    | cons v vs =>
      have hv : x1 + 1 < v := hsep x1 (by simp) v (by simp)
      rw [List.nil_append]
      conv_lhs => rw [runsOfAux]
      rw [if_neg (by omega)]
      rfl
  | cons u us ih =>
    intro B x0 x1 hsep
    rw [List.cons_append, runsOfAux, runsOfAux]
    by_cases hu : u = x1 + 1
    · rw [if_pos hu, if_pos hu]
      exact ih B x0 u (fun a ha v hv => hsep a (List.mem_cons_of_mem _ ha) v hv)
    · rw [if_neg hu, if_neg hu]
      rw [ih B u u (fun a ha v hv => hsep a (List.mem_cons_of_mem _ ha) v hv)]
      rw [List.cons_append]

theorem runsOf_append (A B : List Nat)
    (hsep : ∀ u ∈ A, ∀ v ∈ B, u + 1 < v) :
    runsOf (A ++ B) = runsOf A ++ runsOf B := by
  cases A with
  | nil => rfl
  | cons a as =>
    rw [List.cons_append, runsOf, runsOf]
    exact runsOfAux_append as B a a hsep

theorem range'_split (s n m : Nat) :
    List.range' s (n + m) = List.range' s n ++ List.range' (s + n) m := by
  have h := List.range'_append s n m 1
  rw [Nat.one_mul] at h
  rw [Nat.add_comm n m]
  exact h.symm

theorem spansChanges_eq :
    ∀ (l : List (Nat × Nat)) (differs : Nat → Bool) (a w : Nat),
      SpansWF a l → (∀ s ∈ l, s.2 < w) →
      (∀ x, a ≤ x → differs x = true → covered l x) →
      spansChanges differs l = runsOf (diffColsIn differs a (w - a)) := by
  intro l
  induction l with
  | nil =>
    intro differs a w _ _ hcov
    rw [spansChanges]
    rw [diffColsIn_nil differs a (w - a) ?hnone]
    · rfl
    case hnone =>
      intro x hx _
      cases hd : differs x with
      | false => rfl
      | true => exact absurd (hcov x hx hd) (covered_nil x)
  | cons s rest ih =>
    intro differs a w hwf hbnd hcov
    obtain ⟨lo, hi⟩ := s
    rw [SpansWF] at hwf
    obtain ⟨halo, hlohi, hwfr⟩ := hwf
    have hhi : hi < w := hbnd (lo, hi) (by simp)
    have harith : w - a = (lo - a) + ((hi + 1 - lo) + (w - (hi + 1))) := by
      omega
    have hsplit : List.range' a (w - a) =
        List.range' a (lo - a) ++
          (List.range' lo (hi + 1 - lo) ++
            List.range' (hi + 1) (w - (hi + 1))) := by
      rw [harith, range'_split]
      have e1 : a + (lo - a) = lo := by omega
      rw [e1, range'_split]
      have e2 : lo + (hi + 1 - lo) = hi + 1 := by omega
      rw [e2]
    rw [diffColsIn, hsplit, List.filter_append, List.filter_append]
    have hF1 : List.filter differs (List.range' a (lo - a)) = [] := by
      apply List.filter_eq_nil_iff.mpr
      intro x hx hdx
      obtain ⟨hx1, hx2⟩ := List.mem_range'_1.mp hx
      rcases hcov x hx1 (by simpa using hdx) with ⟨s2, hs2, hc1, hc2⟩
      rcases List.mem_cons.mp hs2 with rfl | hmem
      · simp at hc1
        omega
      · have := covered_lb rest (hi + 2) x hwfr ⟨s2, hmem, hc1, hc2⟩
        omega
    rw [hF1, List.nil_append]
    have hsep : ∀ u ∈ List.filter differs (List.range' lo (hi + 1 - lo)),
        ∀ v ∈ List.filter differs (List.range' (hi + 1) (w - (hi + 1))),
        u + 1 < v := by
      intro u hu v hv
      obtain ⟨hu3, hu4⟩ := List.mem_range'_1.mp (List.mem_filter.mp hu).1
      have hvd := (List.mem_filter.mp hv).2
      obtain ⟨hv3, hv4⟩ := List.mem_range'_1.mp (List.mem_filter.mp hv).1
      rcases hcov v (by omega) (by simpa using hvd) with ⟨s2, hs2, hc1, hc2⟩
      rcases List.mem_cons.mp hs2 with rfl | hmem
      · simp at hc2
        omega
      · have := covered_lb rest (hi + 2) v hwfr ⟨s2, hmem, hc1, hc2⟩
        omega
    rw [runsOf_append _ _ hsep]
    rw [spansChanges]
    congr 1
    have hcov2 : ∀ x, hi + 1 ≤ x → differs x = true → covered rest x := by
      intro x hx hdx
      rcases hcov x (by omega) hdx with ⟨s2, hs2, hc1, hc2⟩
      rcases List.mem_cons.mp hs2 with rfl | hmem
      · simp at hc2
        omega
      · exact ⟨s2, hmem, hc1, hc2⟩
    rw [ih differs (hi + 1) w
      (SpansWF_mono rest (hi + 2) (hi + 1) (by omega) hwfr)
      (fun s2 hs2 => hbnd s2 (List.mem_cons_of_mem _ hs2))
      hcov2]
    rw [diffColsIn]

theorem GoodRow_changes (differs : Nat → Bool) (w : Nat) (rd : RowDirty)
    (h : GoodRow differs w rd) :
    rowChangesDirty differs w rd = rowChangesFull differs w := by
  cases rd with
  | full => rfl
  | clean =>
    rw [GoodRow] at h
    rw [rowChangesDirty, rowChangesFull]
    rw [diffColsIn_nil differs 0 w (fun x _ _ => h x)]
    rfl
  | spans l =>
    rw [GoodRow] at h
    obtain ⟨hwf, hbnd, hcov⟩ := h
    rw [rowChangesDirty, rowChangesFull]
    rw [spansChanges_eq l differs 0 w hwf hbnd (fun x _ hx => hcov x hx)]
    rw [Nat.sub_zero]

theorem GoodRow_congr (d1 d2 : Nat → Bool) (w : Nat) (rd : RowDirty)
    (hd : ∀ x, d2 x = d1 x) (h : GoodRow d1 w rd) : GoodRow d2 w rd := by
  cases rd with
  | full => trivial
  | clean =>
    rw [GoodRow] at h ⊢
    intro x
    rw [hd x]
    exact h x
  | spans l =>
    rw [GoodRow] at h ⊢
    exact ⟨h.1, h.2.1, fun x hx => h.2.2 x (by rw [← hd x]; exact hx)⟩

theorem mark_good (differs differs2 : Nat → Bool) (w x : Nat) (rd : RowDirty)
    (hx : x < w)
    (himp : ∀ x2, differs2 x2 = true → x2 = x ∨ differs x2 = true)
    (h : GoodRow differs w rd) :
    GoodRow differs2 w (rd.mark x).1 := by
  cases rd with
  | clean =>
    show GoodRow differs2 w (RowDirty.spans [(x, x)])
    rw [GoodRow]
    refine ⟨?_, ?_, ?_⟩
    · rw [SpansWF]
      exact ⟨Nat.zero_le x, Nat.le_refl x, trivial⟩
    · intro s hs
      rcases List.mem_cons.mp hs with rfl | h2
      · exact hx
      · simp at h2
    · intro x2 hx2
      rcases himp x2 hx2 with rfl | hfalse
      · exact ⟨(x2, x2), by simp, Nat.le_refl x2, Nat.le_refl x2⟩
      · rw [GoodRow] at h
        rw [h x2] at hfalse
        simp at hfalse
  | full =>
    show GoodRow differs2 w RowDirty.full
    trivial
  | spans l =>
    rw [GoodRow] at h
    obtain ⟨hwf, hbnd, hcov⟩ := h
    rw [RowDirty.mark]
    split_ifs with hcap
    · show GoodRow differs2 w RowDirty.full
      trivial
    · show GoodRow differs2 w (RowDirty.spans (addCol x l))
      rw [GoodRow]
      refine ⟨addCol_wf l 0 x (Nat.zero_le x) hwf,
        addCol_bound l x w hx hbnd, ?_⟩
      intro x2 hx2
      rcases himp x2 hx2 with rfl | htrue
      · exact addCol_covers_self l 0 x2 hwf
      · exact addCol_covers_mono l 0 x x2 hwf (hcov x2 htrue)

theorem clear_dirty_inv (b : Buffer) : DiffInv b b.clear_dirty := by
  refine ⟨rfl, rfl, ?_⟩
  intro y
  show GoodRow (rowDiffers b b.clear_dirty y) b.width RowDirty.clean
  rw [GoodRow]
  intro x
  rw [rowDiffers]
  simp [Buffer.clear_dirty]

theorem set_raw_width (b : Buffer) (x y : Nat) (c : Cell) :
    (b.set_raw x y c).width = b.width := by
  rw [Buffer.set_raw]
  split_ifs <;> rfl

theorem set_raw_height (b : Buffer) (x y : Nat) (c : Cell) :
    (b.set_raw x y c).height = b.height := by
  rw [Buffer.set_raw]
  split_ifs <;> rfl

theorem set_raw_dirty_at (b : Buffer) (x y : Nat) (c : Cell)
    (hin : x < b.width ∧ y < b.height) (y2 : Nat) :
    (b.set_raw x y c).dirty y2 =
      if y2 = y then ((b.dirty y).mark x).1 else b.dirty y2 := by
  rw [Buffer.set_raw, if_pos hin]

theorem set_raw_cells_at (b : Buffer) (x y : Nat) (c : Cell)
    (hin : x < b.width ∧ y < b.height) (x2 y2 : Nat) :
    (b.set_raw x y c).cells x2 y2 =
      if x2 = x ∧ y2 = y then c else b.cells x2 y2 := by
  rw [Buffer.set_raw, if_pos hin]

theorem set_raw_oob (b : Buffer) (x y : Nat) (c : Cell)
    (hin : ¬ (x < b.width ∧ y < b.height)) : b.set_raw x y c = b := by
  rw [Buffer.set_raw, if_neg hin]

theorem set_raw_inv (base b : Buffer) (x y : Nat) (c : Cell)
    (h : DiffInv base b) : DiffInv base (b.set_raw x y c) := by
  obtain ⟨hw, hh, hrows⟩ := h
  by_cases hin : x < b.width ∧ y < b.height
  · refine ⟨?_, ?_, ?_⟩
    · rw [set_raw_width]
      exact hw
    · rw [set_raw_height]
      exact hh
    · intro y2
      rw [set_raw_dirty_at b x y c hin y2]
      by_cases hy : y2 = y
      · subst hy
        rw [if_pos rfl]
        refine mark_good (rowDiffers base b y2) _ base.width x (b.dirty y2)
          (by rw [← hw]; exact hin.1) ?_ (hrows y2)
        intro x2 h2
        by_cases hx2 : x2 = x
        · exact Or.inl hx2
        · right
          rw [rowDiffers] at h2 ⊢
          rw [set_raw_cells_at b x y2 c hin x2 y2,
            if_neg (fun hcc => hx2 hcc.1)] at h2
          exact h2
      · rw [if_neg hy]
        refine GoodRow_congr (rowDiffers base b y2) _ base.width (b.dirty y2)
          ?_ (hrows y2)
        intro x2
        rw [rowDiffers, rowDiffers]
        rw [set_raw_cells_at b x y c hin x2 y2,
          if_neg (fun hcc => hy hcc.2)]
  · rw [set_raw_oob b x y c hin]
    exact ⟨hw, hh, hrows⟩

theorem applyWrites_inv : ∀ (ws : List (Nat × Nat × Cell)) (base b : Buffer),
    DiffInv base b → DiffInv base (applyWrites b ws) := by
  intro ws
  induction ws with
  | nil => intro base b h; exact h
  | cons wr rest ih =>
    intro base b h
    obtain ⟨x, y, c⟩ := wr
    rw [applyWrites]
    exact ih base _ (set_raw_inv base b x y c h)

theorem rowsJoin_congr (f g : Nat → List (Nat × Nat)) (h : Nat)
    (hfg : ∀ y, f y = g y) : rowsJoin f h = rowsJoin g h := by
  have he : f = g := funext hfg
  rw [he]

theorem rowsJoin_nil (h : Nat) : rowsJoin (fun _ => []) h = [] := by
  rw [rowsJoin]
  have hgen : ∀ l : List Nat,
      l.foldr
        (fun y acc =>
          (([] : List (Nat × Nat)).map fun p => (y, p.1, p.2)) ++ acc)
        ([] : List (Nat × Nat × Nat)) = [] := by
    intro l
    induction l with
    | nil => rfl
    | cons a as ih => simp [ih]
  exact hgen _

theorem spansChanges_nil (differs : Nat → Bool)
    (h : ∀ x, differs x = false) :
    ∀ l, spansChanges differs l = [] := by
  intro l
  induction l with
  | nil => rfl
  | cons s rest ih =>
    obtain ⟨lo, hi⟩ := s
    rw [spansChanges, ih, diffColsIn_nil differs lo _ (fun x _ _ => h x)]
    rfl

/-- C2: for every buffer and every sequence of cell writes applied after
`clear_dirty`, `compute_dirty(old, new)` returns exactly the same ordered
change list as `compute(old, new)` — including rows promoted to full dirty
by span overflow and changes in the last column of arbitrarily wide grids:
the dirty spans always cover every cell that differs from the
pre-`clear_dirty` state, and scanning them emits the same coalesced runs as
the full row scan. -/
theorem dirty_diff_equivalence (b : Buffer) (ws : List (Nat × Nat × Cell)) :
    BufferDiff.compute_dirty b (applyWrites b.clear_dirty ws) =
      BufferDiff.compute b (applyWrites b.clear_dirty ws) := by
  obtain ⟨hw, hh, hrows⟩ :=
    applyWrites_inv ws b b.clear_dirty (clear_dirty_inv b)
  rw [BufferDiff.compute_dirty, BufferDiff.compute]
  rw [if_pos ⟨hw.symm, hh.symm⟩, if_pos ⟨hw.symm, hh.symm⟩]
  congr 1
  apply rowsJoin_congr
  intro y
  rw [hw]
  exact GoodRow_changes (rowDiffers b (applyWrites b.clear_dirty ws) y)
    b.width ((applyWrites b.clear_dirty ws).dirty y) (hrows y)

/-- C7: diffing buffers of unequal dimensions returns the
DimensionMismatch error (from both `compute` and `compute_dirty`), and on
identical like-sized buffers both return an empty diff. -/
theorem diff_mismatch_error_and_identical_empty :
    (∀ bOld bNew : Buffer,
      ¬ (bOld.width = bNew.width ∧ bOld.height = bNew.height) →
      BufferDiff.compute bOld bNew = .error .dimensionMismatch ∧
        BufferDiff.compute_dirty bOld bNew = .error .dimensionMismatch) ∧
      ∀ bOld bNew : Buffer,
        bOld.width = bNew.width → bOld.height = bNew.height →
        (∀ x y, bOld.cells x y = bNew.cells x y) →
        BufferDiff.compute bOld bNew = .ok [] ∧
          BufferDiff.compute_dirty bOld bNew = .ok [] := by
  constructor
  · intro bOld bNew hne
    rw [BufferDiff.compute, BufferDiff.compute_dirty, if_neg hne, if_neg hne]
    exact ⟨rfl, rfl⟩
  · intro bOld bNew hww hhh hcells
    have hdiff : ∀ y x, rowDiffers bOld bNew y x = false := by
      intro y x
      rw [rowDiffers]
      simp [hcells x y]
    have hfull : ∀ y,
        rowChangesFull (rowDiffers bOld bNew y) bNew.width = [] := by
      intro y
      rw [rowChangesFull, diffColsIn_nil _ 0 _ (fun x _ _ => hdiff y x)]
      rfl
    constructor
    · rw [BufferDiff.compute, if_pos ⟨hww, hhh⟩]
      congr 1
      rw [rowsJoin_congr _ (fun _ => []) bNew.height hfull]
      exact rowsJoin_nil bNew.height
    · rw [BufferDiff.compute_dirty, if_pos ⟨hww, hhh⟩]
      congr 1
      have hd : ∀ y,
          rowChangesDirty (rowDiffers bOld bNew y) bNew.width
            (bNew.dirty y) = [] := by
        intro y
        cases hdy : bNew.dirty y with
        | clean => rfl
        | full =>
          rw [rowChangesDirty]
          exact hfull y
        | spans l =>
          rw [rowChangesDirty]
          exact spansChanges_nil _ (hdiff y) l
      rw [rowsJoin_congr _ (fun _ => []) bNew.height hd]
      exact rowsJoin_nil bNew.height

theorem diff_mismatch_witness :
    (¬ ((Buffer.new 2 2).width = (Buffer.new 3 2).width ∧
        (Buffer.new 2 2).height = (Buffer.new 3 2).height)) ∧
      BufferDiff.compute (Buffer.new 2 2) (Buffer.new 3 2)
        = .error .dimensionMismatch ∧
      BufferDiff.compute (Buffer.new 2 2) (Buffer.new 2 2) = .ok [] ∧
      BufferDiff.compute_dirty (Buffer.new 2 2) (Buffer.new 2 2) = .ok [] :=
  ⟨by decide,
    (diff_mismatch_error_and_identical_empty.1 _ _ (by decide)).1,
    (diff_mismatch_error_and_identical_empty.2 (Buffer.new 2 2)
      (Buffer.new 2 2) rfl rfl (fun _ _ => rfl)).1,
    (diff_mismatch_error_and_identical_empty.2 (Buffer.new 2 2)
      (Buffer.new 2 2) rfl rfl (fun _ _ => rfl)).2⟩

theorem cache_len_le_capacity_witness :
    1 ≤ 1 ∧
      (applyCacheOps (LayoutCache.new 1)
        [CacheOp.get (LayoutCacheKey.new ⟨0, 0, 0, 0⟩ [] .horizontal none) [],
         CacheOp.get (LayoutCacheKey.new ⟨0, 0, 1, 1⟩ [] .vertical none) []]).len ≤
      (applyCacheOps (LayoutCache.new 1)
        [CacheOp.get (LayoutCacheKey.new ⟨0, 0, 0, 0⟩ [] .horizontal none) [],
         CacheOp.get (LayoutCacheKey.new ⟨0, 0, 1, 1⟩ [] .vertical none) []]).capacity :=
  ⟨by decide, cache_len_le_capacity 1 _ (by decide)⟩

end FrankenTui
